import Mathlib

/-!
Verification of the trible CLI's pile tooling against its specification.

The Rust sources are shallowly embedded: blob handles (32-byte Blake3
hashes) and branch ids (16-byte ids) are represented as `Nat`, decoded
`TribleSet` blobs are represented by the projections the CLI actually
reads (parent / content / branch / head / name attribute values), and the
on-disk pile file is represented at record granularity (the raw-log
parsers only ever look at one 64-byte header at a time plus the declared
blob length).
-/

set_option maxHeartbeats 1000000

namespace Trible

/-- Record kind of a branch record, as printed by reflog/journal. -/
inductive RKind where
  | set
  | del
deriving DecidableEq, Repr

/-- The projections of a decoded `TribleSet` blob that the CLI reads, in
triple-iteration order: values of the `repo_parent_attr`,
`repo_content_attr`, `repo_branch_attr`, `repo_head_attr` and
`metadata::name` attributes. -/
structure TS where
  parents : List Nat
  contents : List Nat
  branchRefs : List Nat
  heads : List Nat
  names : List Nat
deriving DecidableEq, Repr

/-- A blob present in the pile: its record timestamp (as returned by
`reader.metadata(...)`), its decoding as a `TribleSet` if `reader.get::<TribleSet>`
succeeds, and its decoding as a string view if it is a name blob. -/
structure BlobEntry where
  ts : Nat
  decoded : Option TS
  strVal : Option (List Char)
deriving DecidableEq, Repr

/-- The blob store contents visible through a pile reader, in file order.
A key's first occurrence is authoritative (content addressing makes
duplicate keys carry identical payloads in reality). -/
structure PileView where
  blobs : List (Nat × BlobEntry)
deriving DecidableEq, Repr

/-- `reader.metadata(h).is_some()`: is the blob present? -/
def PileView.present (pv : PileView) (h : Nat) : Bool :=
  (pv.blobs.lookup h).isSome

/-- `reader.metadata(h)`, projected to the record timestamp. -/
def PileView.tsOf (pv : PileView) (h : Nat) : Option Nat :=
  (pv.blobs.lookup h).map (·.ts)

/-- `reader.get::<TribleSet, SimpleArchive>(h)`: `some` iff the blob is
present and decodes. -/
def PileView.decode (pv : PileView) (h : Nat) : Option TS :=
  (pv.blobs.lookup h).bind (·.decoded)

/-- `reader.get::<View<str>, _>(h)` for a branch-name blob. -/
def PileView.decodeStr (pv : PileView) (h : Nat) : Option (List Char) :=
  (pv.blobs.lookup h).bind (·.strVal)

/-- `extract_repo_head` (branch.rs:1363): the unique `repo::head` value of a
branch-metadata set, `none` when absent or ambiguous (multiple heads). -/
def extractRepoHead (ts : TS) : Option Nat :=
  match ts.heads with
  | [h] => some h
  | _ => none

/-- `load_branch_name(...).ok().flatten()` as used by reflog/journal
(branch.rs:1422): the unique name-attribute handle resolved through the
blob store; `none` when absent, ambiguous, or the name blob is unreadable. -/
def loadBranchNameOpt (pv : PileView) (ts : TS) : Option (List Char) :=
  match ts.names with
  | [h] => pv.decodeStr h
  | _ => none

/-! ## The raw pile-file scan (branch.rs Reflog / Journal loops)

The scanners read one 64-byte record header at a time at 64-byte-aligned
offsets; a pile file is therefore embedded as its byte length plus the
record header that parsing the 64 bytes at a given offset yields. -/

/-- The 64-byte record header at some offset, classified by its 16-byte
magic marker. `branchRec`/`tombRec` carry the 16-byte id (as a `Nat`, `0`
is the nil id that `Id::new` rejects) and, for branch-set records, the
32-byte metadata handle. `blobRec` carries the declared `length: u64`. -/
inductive RawRecord where
  | blobRec (len : Nat)
  | branchRec (id : Nat) (meta : Nat)
  | tombRec (id : Nat)
  | unknown
deriving DecidableEq, Repr

/-- A pile file, at record granularity: total byte length and the record
header parsed from the 64 bytes starting at each offset. -/
structure RawFile where
  size : Nat
  recAt : Nat → RawRecord

/-- `RECORD_LEN` (branch.rs:37). -/
def RECORD_LEN : Nat := 64

/-- `u64::MAX`. -/
def U64MAX : Nat := 2 ^ 64 - 1

/-- `blob_padding` (branch.rs:1353): zero-padding after a blob payload up
to the next 64-byte boundary. -/
def blob_padding (len : Nat) : Nat :=
  let rem := len % RECORD_LEN
  if rem = 0 then 0 else RECORD_LEN - rem

/-- The offset right after a blob record starting at `off` with declared
payload length `len`: header + payload + padding. -/
def blobSkip (off len : Nat) : Nat :=
  off + RECORD_LEN + len + blob_padding len

/-- A branch record seen while scanning the raw log: its offset and payload. -/
inductive Event where
  | set (off id meta : Nat)
  | del (off id : Nat)
deriving DecidableEq, Repr

/-- Errors of the raw scan: the only one is the `checked_add` failure
`"pile too large"` when skipping a blob would pass `u64::MAX`. -/
inductive ScanErr where
  | pileTooLarge
deriving DecidableEq, Repr

/-- The raw-log scan loop shared by `Reflog` (branch.rs:578) and `Journal`
(branch.rs:754), accumulating every branch-set/tombstone record in file
order.  Structurally recursive on explicit fuel; `none` means the fuel ran
out (never happens for the fuel `scan` supplies, see `scanGo_total`). -/
def scanGo (f : RawFile) : Nat → Nat → List Event → Option (Except ScanErr (List Event))
  | 0, _, _ => none
  | fuel + 1, off, acc =>
    if f.size < off + RECORD_LEN then some (.ok acc)
    else
      match f.recAt off with
      | .blobRec len =>
        let next := blobSkip off len
        if U64MAX < next then some (.error .pileTooLarge)
        else scanGo f fuel next acc
      | .branchRec id meta =>
        if id = 0 then some (.ok acc)
        else scanGo f fuel (off + RECORD_LEN) (acc ++ [.set off id meta])
      | .tombRec id =>
        if id = 0 then some (.ok acc)
        else scanGo f fuel (off + RECORD_LEN) (acc ++ [.del off id])
      | .unknown => some (.ok acc)

/-- The full raw-log scan from offset 0.  The fuel `f.size + 1` is enough
because every iteration that recurses advances the offset by at least 64. -/
def scan (f : RawFile) : Option (Except ScanErr (List Event)) :=
  scanGo f (f.size + 1) 0 []

/-- Each recursive step of `scanGo` advances the offset by at least one
record length, so fuel exceeding the remaining bytes suffices. -/
theorem scanGo_total (f : RawFile) :
    ∀ fuel off acc, f.size - off < fuel → (scanGo f fuel off acc).isSome := by
  intro fuel
  induction fuel with
  | zero => intro off acc h; omega
  | succ n ih =>
    intro off acc h
    unfold scanGo
    by_cases hsz : f.size < off + RECORD_LEN
    · simp [hsz]
    · simp only [hsz, if_false]
      cases hrec : f.recAt off with
      | blobRec len =>
        simp only []
        by_cases hbig : U64MAX < blobSkip off len
        · simp [hbig]
        · simp only [hbig, if_false]
          apply ih
          have : off + RECORD_LEN ≤ blobSkip off len := by
            unfold blobSkip; omega
          unfold RECORD_LEN at *
          omega
      | branchRec id meta =>
        by_cases hid : id = 0
        · simp [hid]
        · simp only [hid, if_false]
          apply ih
          unfold RECORD_LEN at *
          omega
      | tombRec id =>
        by_cases hid : id = 0
        · simp [hid]
        · simp only [hid, if_false]
          apply ih
          unfold RECORD_LEN at *
          omega
      | unknown => simp

/-! ## Reflog (branch.rs:532) -/

/-- One printed reflog entry (branch.rs `struct Entry`). -/
structure ReflogEntry where
  offset : Nat
  kind : RKind
  meta : Option Nat
  metaPresent : Bool
  head : Option Nat
  headPresent : Option Bool
  name : Option (List Char)
deriving DecidableEq, Repr

/-- Build the enriched entry for a branch-set record (branch.rs:606-635):
presence of the metadata blob, and — when it is present and decodable —
the branch name and the `repo::head` commit with its own presence flag. -/
def mkSetEntry (pv : PileView) (off meta : Nat) : ReflogEntry :=
  let metaPresent := pv.present meta
  match if metaPresent then pv.decode meta else none with
  | some ts =>
    let head := extractRepoHead ts
    { offset := off, kind := .set, meta := some meta, metaPresent := metaPresent
      head := head, headPresent := head.map (fun h => pv.present h)
      name := loadBranchNameOpt pv ts }
  | none =>
    { offset := off, kind := .set, meta := some meta, metaPresent := metaPresent
      head := none, headPresent := none, name := none }

/-- The entry for a tombstone record (branch.rs:648-661). -/
def mkDelEntry (off : Nat) : ReflogEntry :=
  { offset := off, kind := .del, meta := none, metaPresent := false
    head := none, headPresent := none, name := none }

/-- The bounded ring buffer push (branch.rs:624-627 / 649-652): evict the
front when the buffer already holds `limit` entries, then append. -/
def ringPush (limit : Nat) (e : ReflogEntry) (acc : List ReflogEntry) : List ReflogEntry :=
  (if acc.length = limit then acc.drop 1 else acc) ++ [e]

/-- Handling of one scanned record in the `Reflog` loop: records for other
branches are ignored, matching ones enter the ring buffer. -/
def reflogStep (pv : PileView) (bid limit : Nat) (acc : List ReflogEntry) (ev : Event) :
    List ReflogEntry :=
  match ev with
  | .set off id meta => if id = bid then ringPush limit (mkSetEntry pv off meta) acc else acc
  | .del off id => if id = bid then ringPush limit (mkDelEntry off) acc else acc

/-- Fold the scanned branch records for one branch id through the ring
buffer, oldest first (the file-order scan). -/
def reflogEntries (pv : PileView) (bid limit : Nat) (evs : List Event) : List ReflogEntry :=
  evs.foldl (reflogStep pv bid limit) []

/-- The `Reflog` command on an already-scanned log: retained entries are
printed latest-first (branch.rs:672 `entries.iter().rev()`). -/
def reflogPrint (pv : PileView) (bid limit : Nat) (evs : List Event) : List ReflogEntry :=
  (reflogEntries pv bid limit evs).reverse

/-- The branch records of the log that match `bid`, in file order, with the
entry each would produce. -/
def reflogMatches (pv : PileView) (bid : Nat) (evs : List Event) : List ReflogEntry :=
  evs.filterMap
    (fun ev =>
      match ev with
      | .set off id meta => if id = bid then some (mkSetEntry pv off meta) else none
      | .del off id => if id = bid then some (mkDelEntry off) else none)

/-! ## Journal (branch.rs:713) -/

/-- Latest-record state per branch id (branch.rs `struct State`). -/
structure JState where
  offset : Nat
  kind : RKind
  meta : Option Nat
  lastSet : Option Nat
deriving DecidableEq, Repr

/-- Replace the state stored for `id` in the association list, appending a
fresh entry when the id is new (the `HashMap::entry(..).or_insert(..)`
followed by unconditional field updates). -/
def upsert (id : Nat) (st : JState) : List (Nat × JState) → List (Nat × JState)
  | [] => [(id, st)]
  | (k, v) :: tl => if k = id then (k, st) :: tl else (k, v) :: upsert id st tl

/-- Look up the state stored for `id`. -/
def jLookup (id : Nat) : List (Nat × JState) → Option JState
  | [] => none
  | (k, v) :: tl => if k = id then some v else jLookup id tl

/-- Handling of one scanned record in the `Journal` loop: a set record
renews everything for its id, a tombstone clears the current metadata but
keeps the handle of the last set record. -/
def journalStep (states : List (Nat × JState)) (ev : Event) : List (Nat × JState) :=
  match ev with
  | .set off id meta =>
    upsert id { offset := off, kind := .set, meta := some meta, lastSet := some meta } states
  | .del off id =>
    let prev := jLookup id states
    upsert id
      { offset := off, kind := .del, meta := none
        lastSet := (prev.map (·.lastSet)).getD none } states

/-- The single forward pass of `Journal` (branch.rs:754-818): keep, per
branch id, the latest record. -/
def journalStates (evs : List Event) : List (Nat × JState) :=
  evs.foldl journalStep []

/-- One printed journal row (branch.rs:824-882). -/
structure JRow where
  id : Nat
  kind : RKind
  metaHandle : Option Nat
  metaPresent : Bool
  head : Option Nat
  headPresent : Option Bool
  name : Option (List Char)
deriving DecidableEq, Repr

/-- Build the printed row for one id's latest state (branch.rs:829-882):
tombstoned ids report their last set handle, and the metadata blob is
opportunistically resolved to a name and a head commit. -/
def mkJRow (pv : PileView) (id : Nat) (st : JState) : JRow :=
  let mh := match st.kind with
    | .set => st.meta
    | .del => st.lastSet
  match mh with
  | none =>
    { id := id, kind := st.kind, metaHandle := none, metaPresent := false
      head := none, headPresent := none, name := none }
  | some h =>
    match if pv.present h then pv.decode h else none with
    | some ts =>
      let head := extractRepoHead ts
      { id := id, kind := st.kind, metaHandle := some h, metaPresent := pv.present h
        head := head, headPresent := head.map (fun c => pv.present c)
        name := loadBranchNameOpt pv ts }
    | none =>
      { id := id, kind := st.kind, metaHandle := some h, metaPresent := pv.present h
        head := none, headPresent := none, name := none }

/-- Sort rows newest-offset-first (branch.rs:821 `sort_by(b.offset.cmp(&a.offset))`). -/
def sortByOffsetDesc (rows : List (Nat × JState)) : List (Nat × JState) :=
  rows.mergeSort (fun a b => b.2.offset ≤ a.2.offset)

/-- The printing loop (branch.rs:824-888): skip non-tombstoned ids under
`--deleted`, stop once `limit` rows have been printed (the check runs
after each print). -/
def journalTake (pv : PileView) (deleted : Bool) (limit : Nat) :
    List (Nat × JState) → Nat → List JRow
  | [], _ => []
  | (id, st) :: tl, printed =>
    if deleted ∧ st.kind ≠ .del then journalTake pv deleted limit tl printed
    else
      mkJRow pv id st ::
        (if limit ≤ printed + 1 then [] else journalTake pv deleted limit tl (printed + 1))

/-- The `Journal` command on an already-scanned log. -/
def journalPrint (pv : PileView) (limit : Nat) (deleted : Bool) (evs : List Event) : List JRow :=
  journalTake pv deleted limit (sortByOffsetDesc (journalStates evs)) 0

/-- The latest record kind the log holds for `id`, if any. -/
def lastKind (evs : List Event) (id : Nat) : Option RKind :=
  (evs.filterMap
    (fun ev => match ev with
      | .set _ i _ => if i = id then some RKind.set else none
      | .del _ i => if i = id then some RKind.del else none)).getLast?

/-- The metadata handle of the most recent set record for `id`, if any. -/
def lastSetMeta (evs : List Event) (id : Nat) : Option Nat :=
  (evs.filterMap
    (fun ev => match ev with
      | .set _ i m => if i = id then some m else none
      | .del _ _ => none)).getLast?

/-- `branches()` per the spec (§4.3): the ids whose latest branch record is
a set, i.e. the live index that journal must bypass to see tombstones. -/
def liveBranch (evs : List Event) (id : Nat) : Prop :=
  lastKind evs id = some RKind.set

/-! ## `verify_chain` (cli/pile.rs:294 and cli/pile/mod.rs:123)

Depth-first traversal of the commit DAG from a head handle, deduplicated
by hash; each visited commit must be present, decodable, and have at least
one present content blob. -/

/-- The first error `verify_chain` reports; each variant names the
offending commit's hash (the Rust code formats it into the message). -/
inductive ChainErr where
  | missing (h : Nat)
  | decodeFailed (h : Nat)
  | contentMissing (h : Nat)
deriving DecidableEq, Repr

/-- The commit hash a chain error names. -/
def ChainErr.handle : ChainErr → Nat
  | .missing h => h
  | .decodeFailed h => h
  | .contentMissing h => h

/-- Which condition the error variant reports actually holds in the pile. -/
def chainErrSpec (pv : PileView) : ChainErr → Prop
  | .missing h => pv.present h = false
  | .decodeFailed h => pv.present h = true ∧ pv.decode h = none
  | .contentMissing h => ∃ ts, pv.decode h = some ts ∧ ts.contents.any pv.present = false

/-- The per-commit check of `verify_chain`: present, decodable, and at
least one content handle resolves to a present blob. -/
def okAt (pv : PileView) (h : Nat) : Bool :=
  match pv.decode h with
  | some ts => ts.contents.any pv.present
  | none => false

/-- The `while let Some(h) = stack.pop()` loop of `verify_chain`,
structurally recursive on fuel (`none` = fuel ran out; the fuel
`verify_chain` supplies always suffices, see `goVC_main`).  Parents are
pushed in order, so they pop in reverse. -/
def goVC (pv : PileView) : Nat → List Nat → List Nat → Nat → Option (Nat × Option ChainErr)
  | 0, _, _, _ => none
  | _ + 1, [], _, count => some (count, none)
  | fuel + 1, h :: rest, visited, count =>
    if h ∈ visited then goVC pv fuel rest visited count
    else if pv.present h = false then some (count, some (.missing h))
    else
      match pv.decode h with
      | none => some (count, some (.decodeFailed h))
      | some ts =>
        if ts.contents.any pv.present then
          goVC pv fuel (ts.parents.reverse ++ rest) (h :: visited) (count + 1)
        else some (count, some (.contentMissing h))

/-- Parent edges still pending: total parent count of decodable blobs whose
key is not yet visited.  Bounds the work the DFS can still do. -/
def pendingParents (visited : List Nat) : List (Nat × BlobEntry) → Nat
  | [] => 0
  | (h, b) :: tl =>
    (if h ∈ visited then 0 else (b.decoded.map (·.parents.length)).getD 0) +
      pendingParents visited tl

/-- The DFS potential: stack size plus pending parent edges. -/
def Phi (pv : PileView) (stack visited : List Nat) : Nat :=
  stack.length + pendingParents visited pv.blobs

/-- `verify_chain`: run the DFS from the head with provably sufficient fuel. -/
def verify_chain (pv : PileView) (start : Nat) : Option (Nat × Option ChainErr) :=
  goVC pv (2 + pendingParents [] pv.blobs) [start] [] 0

/-- A parent edge of the commit graph: `a` decodes and lists `b` as parent. -/
def edgeVC (pv : PileView) (a b : Nat) : Prop :=
  ∃ ts, pv.decode a = some ts ∧ b ∈ ts.parents

/-- Reachability over parent edges from the start handle. -/
def ReachVC (pv : PileView) (s x : Nat) : Prop :=
  Relation.ReflTransGen (edgeVC pv) s x

/-- The set of handles reachable from `s`. -/
def RSet (pv : PileView) (s : Nat) : Set Nat :=
  { x | ReachVC pv s x }

/-- Every parent handle any decodable blob mentions. -/
def allParents (pv : PileView) : List Nat :=
  (pv.blobs.map (fun e => (e.2.decoded.map (·.parents)).getD [])).flatten

theorem lookup_mem {α β : Type} [BEq α] [LawfulBEq α] {l : List (α × β)} {k : α} {v : β}
    (h : l.lookup k = some v) : (k, v) ∈ l := by
  induction l with
  | nil => simp [List.lookup] at h
  | cons hd tl ih =>
    obtain ⟨k2, b⟩ := hd
    rw [List.lookup] at h
    cases hbeq : k == k2 with
    | true =>
      simp only [hbeq, Option.some.injEq] at h
      have hk : k = k2 := eq_of_beq hbeq
      subst hk
      subst h
      exact List.mem_cons_self _ _
    | false =>
      simp only [hbeq] at h
      exact List.mem_cons_of_mem _ (ih h)

theorem decode_parents_sub {pv : PileView} {a : Nat} {ts : TS}
    (h : pv.decode a = some ts) : ∀ p ∈ ts.parents, p ∈ allParents pv := by
  intro p hp
  unfold PileView.decode at h
  obtain ⟨b, hb, hdec⟩ := Option.bind_eq_some.mp h
  have hmem := lookup_mem hb
  unfold allParents
  rw [List.mem_flatten]
  refine ⟨ts.parents, ?_, hp⟩
  rw [List.mem_map]
  exact ⟨(a, b), hmem, by simp [hdec]⟩

theorem reach_mem_cover {pv : PileView} {s x : Nat} (h : ReachVC pv s x) :
    x = s ∨ x ∈ allParents pv := by
  induction h with
  | refl => left; rfl
  | tail _ e ih =>
    right
    obtain ⟨ts, hts, hp⟩ := e
    exact decode_parents_sub hts _ hp

theorem rset_finite (pv : PileView) (s : Nat) : (RSet pv s).Finite := by
  have hfin : (insert s { x : Nat | x ∈ allParents pv } : Set Nat).Finite :=
    Set.Finite.insert s ((allParents pv).finite_toSet)
  apply hfin.subset
  intro x hx
  rcases reach_mem_cover hx with h | h
  · exact Or.inl h
  · exact Or.inr h

theorem decode_present {pv : PileView} {h : Nat} {ts : TS}
    (hd : pv.decode h = some ts) : pv.present h = true := by
  unfold PileView.decode at hd
  unfold PileView.present
  obtain ⟨b, hb, _⟩ := Option.bind_eq_some.mp hd
  simp [hb]

theorem okAt_not_err {pv : PileView} {e : ChainErr} (hok : okAt pv e.handle = true)
    (hspec : chainErrSpec pv e) : False := by
  cases e with
  | missing h =>
    unfold chainErrSpec at hspec
    unfold okAt ChainErr.handle at hok
    cases hdec : pv.decode h with
    | none => rw [hdec] at hok; simp at hok
    | some ts => have := decode_present hdec; simp [this] at hspec
  | decodeFailed h =>
    unfold chainErrSpec at hspec
    unfold okAt ChainErr.handle at hok
    rw [hspec.2] at hok
    simp at hok
  | contentMissing h =>
    unfold chainErrSpec at hspec
    obtain ⟨ts, hts, hc⟩ := hspec
    unfold okAt ChainErr.handle at hok
    rw [hts] at hok
    simp [hc] at hok

/-- Pending parent edges only shrink as the visited set grows. -/
theorem pendingParents_mono (h : Nat) (visited : List Nat) :
    ∀ l, pendingParents (h :: visited) l ≤ pendingParents visited l := by
  intro l
  induction l with
  | nil => simp [pendingParents]
  | cons hd tl ih =>
    unfold pendingParents
    have : (if hd.1 ∈ h :: visited then 0
        else (hd.2.decoded.map (·.parents.length)).getD 0) ≤
        (if hd.1 ∈ visited then 0 else (hd.2.decoded.map (·.parents.length)).getD 0) := by
      by_cases hv : hd.1 ∈ visited
      · simp [hv, List.mem_cons]
      · by_cases hh : hd.1 ∈ h :: visited <;> simp [hv, hh]
    obtain ⟨a, b⟩ := hd
    omega

theorem pendingParents_visit_aux {h : Nat} {b : BlobEntry} {ts : TS} {visited : List Nat}
    (hbd : b.decoded = some ts) (hnv : h ∉ visited) :
    ∀ l : List (Nat × BlobEntry), l.lookup h = some b →
      pendingParents (h :: visited) l + ts.parents.length ≤ pendingParents visited l := by
  intro l
  induction l with
  | nil => intro hb; simp [List.lookup] at hb
  | cons hd tl ih =>
    obtain ⟨k2, b2⟩ := hd
    intro hb
    rw [List.lookup] at hb
    cases hbeq : h == k2 with
    | true =>
      have hkeq : h = k2 := eq_of_beq hbeq
      simp only [hbeq, Option.some.injEq] at hb
      unfold pendingParents
      have h1 : k2 ∈ h :: visited := by simp [hkeq]
      have h2 : k2 ∉ visited := by rw [← hkeq]; exact hnv
      simp only [h1, if_true, h2, if_false, hb, hbd]
      have hmono := pendingParents_mono h visited tl
      have hf : ((some ts).map (fun x : TS => x.parents.length)).getD 0 =
        ts.parents.length := rfl
      simp only [hf]
      omega
    | false =>
      simp only [hbeq] at hb
      have := ih hb
      unfold pendingParents
      have heq : (if k2 ∈ h :: visited then 0
          else (b2.decoded.map (·.parents.length)).getD 0) =
          (if k2 ∈ visited then 0 else (b2.decoded.map (·.parents.length)).getD 0) := by
        by_cases hv : k2 ∈ visited
        · simp [hv, List.mem_cons]
        · have hnc : k2 ∉ h :: visited := by
            simp only [List.mem_cons]
            rintro (hcon | hcon)
            · exact absurd (beq_iff_eq.mpr hcon.symm) (by simp [hbeq])
            · exact hv hcon
          simp [hv, hnc]
      omega

/-- Visiting a decodable handle pays for all the parents it pushes. -/
theorem pendingParents_visit {pv : PileView} {h : Nat} {ts : TS} {visited : List Nat}
    (hdec : pv.decode h = some ts) (hnv : h ∉ visited) :
    pendingParents (h :: visited) pv.blobs + ts.parents.length ≤
      pendingParents visited pv.blobs := by
  unfold PileView.decode at hdec
  obtain ⟨b, hb, hbd⟩ := Option.bind_eq_some.mp hdec
  exact pendingParents_visit_aux hbd hnv pv.blobs hb

/-- If every parent of a visited handle lies in `visited ∪ stack`, any
handle reachable from a visited one is itself visited or reachable from a
stack element. -/
theorem reach_escape {pv : PileView} {visited stack : List Nat}
    (hexp : ∀ v ∈ visited, ∀ ts, pv.decode v = some ts →
      ∀ p ∈ ts.parents, p ∈ visited ∨ p ∈ stack) :
    ∀ t x, t ∈ visited → ReachVC pv t x →
      x ∈ visited ∨ ∃ u ∈ stack, ReachVC pv u x := by
  intro t x ht hr
  induction hr using Relation.ReflTransGen.head_induction_on with
  | refl => exact Or.inl ht
  | head e _ ih =>
    rename_i a c _
    obtain ⟨ts, hts, hp⟩ := e
    rcases hexp a ht ts hts c hp with hc | hc
    · exact ih hc
    · exact Or.inr ⟨c, hc, by assumption⟩

/-- A duplicate-free list contained in a finite set is no longer than the
set's cardinality. -/
theorem nodup_length_le_ncard (l : List Nat) (S : Set Nat) (hnd : l.Nodup)
    (hmem : ∀ x ∈ l, x ∈ S) (hfin : S.Finite) : l.length ≤ S.ncard := by
  have hsub : (↑l.toFinset : Set Nat) ⊆ S := by
    intro x hx
    exact hmem x (by simpa using hx)
  calc l.length = l.toFinset.card := (List.toFinset_card_of_nodup hnd).symm
    _ = (↑l.toFinset : Set Nat).ncard := (Set.ncard_coe_Finset _).symm
    _ ≤ S.ncard := Set.ncard_le_ncard hsub hfin

/-- Full characterization of the `verify_chain` DFS loop: with sufficient
fuel and a consistent intermediate state it terminates and returns either
`(N, none)` with every reachable commit intact and `N` the number of
distinct reachable commits, or `(k, some e)` with `k` below that number
and `e` naming a reachable commit that genuinely fails its check. -/
theorem goVC_main (pv : PileView) (s : Nat) :
    ∀ fuel stack visited count,
      Phi pv stack visited < fuel →
      (∀ h ∈ visited, okAt pv h = true) →
      (∀ v ∈ visited, ∀ ts, pv.decode v = some ts →
        ∀ p ∈ ts.parents, p ∈ visited ∨ p ∈ stack) →
      visited.Nodup →
      count = visited.length →
      (∀ h ∈ stack, ReachVC pv s h) →
      (∀ h ∈ visited, ReachVC pv s h) →
      (∀ x, ReachVC pv s x → x ∈ visited ∨ ∃ t ∈ stack, ReachVC pv t x) →
      ∃ r, goVC pv fuel stack visited count = some r ∧
        ((∃ n, r = (n, none) ∧ (∀ x, ReachVC pv s x → okAt pv x = true) ∧
            n = (RSet pv s).ncard) ∨
         (∃ k e, r = (k, some e) ∧ chainErrSpec pv e ∧ ReachVC pv s e.handle ∧
            k < (RSet pv s).ncard)) := by
  intro fuel
  induction fuel with
  | zero =>
    intro stack visited count hfuel
    omega
  | succ n ih =>
    intro stack visited count hfuel h1 h2 hnd hcnt hsr hvr hcomp
    cases stack with
    | nil =>
      refine ⟨(count, none), rfl, Or.inl ⟨count, rfl, ?_, ?_⟩⟩
      · intro x hx
        rcases hcomp x hx with hin | ⟨t, ht, _⟩
        · exact h1 x hin
        · exact absurd ht (List.not_mem_nil t)
      · have hset : RSet pv s = ↑visited.toFinset := by
          ext x
          constructor
          · intro hx
            rcases hcomp x hx with hin | ⟨t, ht, _⟩
            · simpa using hin
            · exact absurd ht (List.not_mem_nil t)
          · intro hx
            exact hvr x (by simpa using hx)
        rw [hcnt, hset, Set.ncard_coe_Finset, List.toFinset_card_of_nodup hnd]
    | cons h rest =>
      by_cases hmem : h ∈ visited
      · -- already visited: skip
        have hres : goVC pv (n + 1) (h :: rest) visited count =
            goVC pv n rest visited count := by
          simp [goVC, hmem]
        rw [hres]
        apply ih rest visited count
        · unfold Phi at *
          simp only [List.length_cons] at hfuel
          omega
        · exact h1
        · intro v hv ts hts p hp
          rcases h2 v hv ts hts p hp with hc | hc
          · exact Or.inl hc
          · rcases List.mem_cons.mp hc with rfl | hc2
            · exact Or.inl hmem
            · exact Or.inr hc2
        · exact hnd
        · exact hcnt
        · intro x hx
          exact hsr x (List.mem_cons_of_mem _ hx)
        · exact hvr
        · intro x hx
          rcases hcomp x hx with hin | ⟨t, ht, htx⟩
          · exact Or.inl hin
          · rcases List.mem_cons.mp ht with rfl | ht2
            · apply reach_escape ?_ t x hmem htx
              intro v hv ts hts p hp
              rcases h2 v hv ts hts p hp with hc | hc
              · exact Or.inl hc
              · rcases List.mem_cons.mp hc with rfl | hc2
                · exact Or.inl hmem
                · exact Or.inr hc2
            · exact Or.inr ⟨t, ht2, htx⟩
      · -- new handle: run the checks
        have hreach_h : ReachVC pv s h := hsr h (List.mem_cons_self _ _)
        by_cases hpres : pv.present h = false
        · refine ⟨(count, some (.missing h)), ?_, Or.inr ⟨count, .missing h, rfl, hpres, hreach_h, ?_⟩⟩
          · simp [goVC, hmem, hpres]
          · have hle := nodup_length_le_ncard (h :: visited) (RSet pv s)
              (List.nodup_cons.mpr ⟨hmem, hnd⟩)
              (by
                intro x hx
                rcases List.mem_cons.mp hx with rfl | hx2
                · exact hreach_h
                · exact hvr x hx2)
              (rset_finite pv s)
            simp only [List.length_cons] at hle
            omega
        · cases hdec : pv.decode h with
          | none =>
            refine ⟨(count, some (.decodeFailed h)), ?_,
              Or.inr ⟨count, .decodeFailed h, rfl, ⟨by simpa using hpres, hdec⟩, hreach_h, ?_⟩⟩
            · simp [goVC, hmem, hpres, hdec]
            · have hle := nodup_length_le_ncard (h :: visited) (RSet pv s)
                (List.nodup_cons.mpr ⟨hmem, hnd⟩)
                (by
                  intro x hx
                  rcases List.mem_cons.mp hx with rfl | hx2
                  · exact hreach_h
                  · exact hvr x hx2)
                (rset_finite pv s)
              simp only [List.length_cons] at hle
              omega
          | some ts =>
            by_cases hcontent : ts.contents.any pv.present
            · -- commit verifies: push its parents and count it
              have hres : goVC pv (n + 1) (h :: rest) visited count =
                  goVC pv n (ts.parents.reverse ++ rest) (h :: visited) (count + 1) := by
                simp [goVC, hmem, hpres, hdec, hcontent]
              rw [hres]
              apply ih
              · -- potential strictly decreased
                unfold Phi at *
                have hvisit := pendingParents_visit hdec hmem
                simp only [List.length_append, List.length_reverse, List.length_cons] at *
                omega
              · intro v hv
                rcases List.mem_cons.mp hv with rfl | hv2
                · unfold okAt
                  rw [hdec]
                  exact hcontent
                · exact h1 v hv2
              · intro v hv ts2 hts2 p hp
                rcases List.mem_cons.mp hv with rfl | hv2
                · rw [hdec] at hts2
                  injection hts2 with hts2
                  subst hts2
                  exact Or.inr (List.mem_append_left _ (List.mem_reverse.mpr hp))
                · rcases h2 v hv2 ts2 hts2 p hp with hc | hc
                  · exact Or.inl (List.mem_cons_of_mem _ hc)
                  · rcases List.mem_cons.mp hc with rfl | hc2
                    · exact Or.inl (List.mem_cons_self _ _)
                    · exact Or.inr (List.mem_append_right _ hc2)
              · exact List.nodup_cons.mpr ⟨hmem, hnd⟩
              · simp [hcnt]
              · intro x hx
                rcases List.mem_append.mp hx with hx1 | hx2
                · exact Relation.ReflTransGen.tail hreach_h
                    ⟨ts, hdec, List.mem_reverse.mp hx1⟩
                · exact hsr x (List.mem_cons_of_mem _ hx2)
              · intro x hx
                rcases List.mem_cons.mp hx with rfl | hx2
                · exact hreach_h
                · exact hvr x hx2
              · intro x hx
                rcases hcomp x hx with hin | ⟨t, ht, htx⟩
                · exact Or.inl (List.mem_cons_of_mem _ hin)
                · rcases List.mem_cons.mp ht with rfl | ht2
                  · rcases (Relation.ReflTransGen.cases_head htx) with rfl | ⟨c, hc, hcx⟩
                    · exact Or.inl (List.mem_cons_self _ _)
                    · obtain ⟨ts2, hts2, hcp⟩ := hc
                      rw [hdec] at hts2
                      injection hts2 with hts2
                      subst hts2
                      exact Or.inr ⟨c,
                        List.mem_append_left _ (List.mem_reverse.mpr hcp), hcx⟩
                  · exact Or.inr ⟨t, List.mem_append_right _ ht2, htx⟩
            · -- no present content blob
              refine ⟨(count, some (.contentMissing h)), ?_,
                Or.inr ⟨count, .contentMissing h, rfl,
                  ⟨ts, hdec, by simpa using hcontent⟩, hreach_h, ?_⟩⟩
              · simp [goVC, hmem, hpres, hdec, hcontent]
              · have hle := nodup_length_le_ncard (h :: visited) (RSet pv s)
                  (List.nodup_cons.mpr ⟨hmem, hnd⟩)
                  (by
                    intro x hx
                    rcases List.mem_cons.mp hx with rfl | hx2
                    · exact hreach_h
                    · exact hvr x hx2)
                  (rset_finite pv s)
                simp only [List.length_cons] at hle
                omega

/-- `verify_chain` characterization, instantiating `goVC_main` at the
initial state: the supplied fuel always suffices. -/
theorem verify_chain_spec (pv : PileView) (start : Nat) :
    ∃ r, verify_chain pv start = some r ∧
      ((∃ n, r = (n, none) ∧ (∀ x, ReachVC pv start x → okAt pv x = true) ∧
          n = (RSet pv start).ncard) ∨
       (∃ k e, r = (k, some e) ∧ chainErrSpec pv e ∧ ReachVC pv start e.handle ∧
          k < (RSet pv start).ncard)) := by
  apply goVC_main pv start (2 + pendingParents [] pv.blobs) [start] [] 0
  · unfold Phi
    simp
  · intro h hh
    exact absurd hh (List.not_mem_nil h)
  · intro v hv
    exact absurd hv (List.not_mem_nil v)
  · exact List.nodup_nil
  · rfl
  · intro h hh
    rcases List.mem_cons.mp hh with rfl | hh2
    · exact Relation.ReflTransGen.refl
    · exact absurd hh2 (List.not_mem_nil h)
  · intro h hh
    exact absurd hh (List.not_mem_nil h)
  · intro x hx
    exact Or.inr ⟨start, List.mem_cons_self _ _, hx⟩

/-- An intact two-commit chain used as witness pile: commit `1` has parent
`2`, both share content blob `3` (present, not a commit). -/
def pvIntact : PileView :=
  ⟨[(1, ⟨5, some ⟨[2], [3], [], [], []⟩, none⟩),
    (2, ⟨6, some ⟨[], [3], [], [], []⟩, none⟩),
    (3, ⟨7, none, none⟩)]⟩

theorem pvIntact_reach : ∀ x, ReachVC pvIntact 1 x → x = 1 ∨ x = 2 := by
  intro x hx
  induction hx with
  | refl => exact Or.inl rfl
  | tail hab e ih =>
    obtain ⟨ts, hts, hp⟩ := e
    rcases ih with rfl | rfl
    · have hd : pvIntact.decode 1 = some ⟨[2], [3], [], [], []⟩ := by rfl
      rw [hd] at hts
      have := Option.some.inj hts
      subst this
      simp at hp
      exact Or.inr hp
    · have hd : pvIntact.decode 2 = some ⟨[], [3], [], [], []⟩ := by rfl
      rw [hd] at hts
      have := Option.some.inj hts
      subst this
      simp at hp

/-- C2: `verify_chain`, started from a head handle, traverses parent edges
depth-first with a hash-keyed visited set; if every reachable commit blob
is present and decodable and each has a present content blob, it returns
`(N, none)` with `N` the number of distinct reachable commits; otherwise
it returns `(k, some error)` with `k < N`, the error naming the specific
offending commit (missing / decode-failed / content-blob-missing). -/
theorem verify_chain_correct (pv : PileView) (start : Nat) :
    ((∀ x, ReachVC pv start x → okAt pv x = true) →
      verify_chain pv start = some ((RSet pv start).ncard, none)) ∧
    (¬ (∀ x, ReachVC pv start x → okAt pv x = true) →
      ∃ k e, verify_chain pv start = some (k, some e) ∧
        k < (RSet pv start).ncard ∧
        ReachVC pv start e.handle ∧ chainErrSpec pv e) := by
  obtain ⟨r, hres, hcase⟩ := verify_chain_spec pv start
  constructor
  · intro hall
    rcases hcase with ⟨n, rfl, _, hn⟩ | ⟨k, e, rfl, hspec, hreach, _⟩
    · rw [hres, hn]
    · exact (okAt_not_err (hall e.handle hreach) hspec).elim
  · intro hnall
    rcases hcase with ⟨n, rfl, hok, _⟩ | ⟨k, e, rfl, hspec, hreach, hlt⟩
    · exact absurd hok hnall
    · exact ⟨k, e, hres, hlt, hreach, hspec⟩

/-- Witness for C2 on the intact two-commit chain: both commits verify and
the count is the number of distinct reachable commits. -/
theorem verify_chain_correct_witness : verify_chain pvIntact 1 = some (2, none) := by
  have hall : ∀ x, ReachVC pvIntact 1 x → okAt pvIntact x = true := by
    intro x hx
    rcases pvIntact_reach x hx with rfl | rfl <;> rfl
  have h := (verify_chain_correct pvIntact 1).1 hall
  have hset : RSet pvIntact 1 = {1, 2} := by
    ext x
    constructor
    · intro hx
      rcases pvIntact_reach x hx with rfl | rfl <;> simp
    · intro hx
      rcases hx with rfl | hx
      · exact Relation.ReflTransGen.refl
      · rw [Set.mem_singleton_iff] at hx
        subst hx
        exact Relation.ReflTransGen.single ⟨⟨[2], [3], [], [], []⟩, rfl, by simp⟩
  rw [hset] at h
  rw [Set.ncard_pair (by omega)] at h
  exact h

/-- C7: for every length, the blob padding is below 64 and pads the payload
to a 64-byte boundary; a blob record at an aligned offset makes the scan
continue at exactly `offset + 64 + len + padding`, which is aligned again;
and the scan stops with a success (not an error) at the first unrecognized
marker or when fewer than 64 bytes remain. -/
theorem blob_padding_alignment :
    (∀ len : Nat, blob_padding len < 64 ∧ (len + blob_padding len) % 64 = 0) ∧
    (∀ off len : Nat, off % 64 = 0 → blobSkip off len % 64 = 0) ∧
    (∀ (f : RawFile) (fuel off : Nat) (acc : List Event) (len : Nat),
      off + RECORD_LEN ≤ f.size → f.recAt off = .blobRec len →
      blobSkip off len ≤ U64MAX →
      scanGo f (fuel + 1) off acc = scanGo f fuel (blobSkip off len) acc) ∧
    (∀ (f : RawFile) (fuel off : Nat) (acc : List Event),
      off + RECORD_LEN ≤ f.size → f.recAt off = .unknown →
      scanGo f (fuel + 1) off acc = some (.ok acc)) ∧
    (∀ (f : RawFile) (fuel off : Nat) (acc : List Event),
      f.size < off + RECORD_LEN →
      scanGo f (fuel + 1) off acc = some (.ok acc)) := by
  refine ⟨?_, ?_, ?_, ?_, ?_⟩
  · intro len
    unfold blob_padding RECORD_LEN
    constructor
    · by_cases h : len % 64 = 0 <;> simp [h] <;> omega
    · by_cases h : len % 64 = 0 <;> simp [h] <;> omega
  · intro off len hoff
    unfold blobSkip blob_padding RECORD_LEN at *
    by_cases h : len % 64 = 0 <;> simp [h] <;> omega
  · intro f fuel off acc len hsz hrec hfit
    have hno : ¬ f.size < off + RECORD_LEN := by omega
    have hno2 : ¬ U64MAX < blobSkip off len := by omega
    simp only [scanGo, hno, if_false, hrec, hno2]
  · intro f fuel off acc hsz hrec
    have hno : ¬ f.size < off + RECORD_LEN := by omega
    simp only [scanGo, hno, if_false, hrec]
  · intro f fuel off acc hsz
    simp only [scanGo, hsz, if_true]

/-- A single-record pile file whose first record has an unrecognized magic
marker. -/
def fUnknown : RawFile := ⟨64, fun _ => .unknown⟩

/-- A pile file shorter than one record. -/
def fShort : RawFile := ⟨63, fun _ => .unknown⟩

/-- A pile file holding one blob record of payload length 1 followed by a
branch record. -/
def fBlob : RawFile :=
  ⟨192, fun off => if off = 0 then .blobRec 1 else if off = 128 then .branchRec 7 9 else .unknown⟩

/-- Witness for C7: padding arithmetic at `len = 1`, alignment of the skip
from offset 0, the exact continuation offset 128 on `fBlob`, and the
error-free stops at an unknown marker and at a short tail. -/
theorem blob_padding_alignment_witness :
    (blob_padding 1 < 64 ∧ (1 + blob_padding 1) % 64 = 0) ∧
    blobSkip 0 1 % 64 = 0 ∧
    scanGo fBlob 4 0 [] = scanGo fBlob 3 128 [] ∧
    scanGo fUnknown 1 0 [] = some (.ok []) ∧
    scanGo fShort 1 0 [] = some (.ok []) := by
  refine ⟨blob_padding_alignment.1 1, blob_padding_alignment.2.1 0 1 (by decide), ?_, ?_, ?_⟩
  · have h := blob_padding_alignment.2.2.1 fBlob 3 0 [] 1 (by decide) (by decide) (by decide)
    have hskip : blobSkip 0 1 = 128 := by decide
    rw [hskip] at h
    exact h
  · exact blob_padding_alignment.2.2.2.1 fUnknown 0 0 [] (by decide) (by decide)
  · exact blob_padding_alignment.2.2.2.2 fShort 0 0 [] (by decide)

/-- C10: the raw-log scan loops terminate on every finite file (the fuel
`scan` supplies is always enough because every iteration that does not
stop advances the offset by at least 64), and the blob-skip arithmetic is
checked: an offset that would exceed `u64::MAX` yields the
"pile too large" error instead of wrapping. -/
theorem raw_scan_terminates :
    (∀ f : RawFile, (scan f).isSome) ∧
    (∀ off len : Nat, off + RECORD_LEN ≤ blobSkip off len) ∧
    (∀ (f : RawFile) (fuel off : Nat) (acc : List Event) (len : Nat),
      off + RECORD_LEN ≤ f.size → f.recAt off = .blobRec len →
      U64MAX < blobSkip off len →
      scanGo f (fuel + 1) off acc = some (.error .pileTooLarge)) := by
  refine ⟨?_, ?_, ?_⟩
  · intro f
    exact scanGo_total f (f.size + 1) 0 [] (by omega)
  · intro off len
    unfold blobSkip RECORD_LEN
    omega
  · intro f fuel off acc len hsz hrec hbig
    unfold scanGo
    have hno : ¬ f.size < off + RECORD_LEN := by omega
    simp [hno, hrec, hbig]

/-- A tiny file declaring a blob payload of `u64::MAX` bytes: skipping it
would overflow the offset. -/
def fHuge : RawFile := ⟨64, fun _ => .blobRec U64MAX⟩

/-- Witness for C10: the scan of the overflowing file is still defined (it
terminates) and reports exactly the "pile too large" error. -/
theorem raw_scan_terminates_witness :
    (scan fHuge).isSome ∧ scanGo fHuge 65 0 [] = some (.error .pileTooLarge) := by
  refine ⟨raw_scan_terminates.1 fHuge, ?_⟩
  exact raw_scan_terminates.2.2 fHuge 64 0 [] U64MAX (by decide) (by decide) (by decide)

/-! ## Textual parsing (branch.rs:1384 `parse_branch_id_hex`,
branch.rs:1393 `parse_blake3_handle`) -/

/-- A hexadecimal digit as accepted by `hex::decode` (both cases). -/
def isHexDigitCh (c : Char) : Bool :=
  c.isDigit || ('a' ≤ c && c ≤ 'f') || ('A' ≤ c && c ≤ 'F')

/-- Numeric value of a hex digit. -/
def hexVal (c : Char) : Nat :=
  if c.isDigit then c.toNat - '0'.toNat
  else if 'a' ≤ c && c ≤ 'f' then c.toNat - 'a'.toNat + 10
  else c.toNat - 'A'.toNat + 10

/-- `hex::decode`: succeeds exactly on even-length all-hex-digit strings,
producing one byte per digit pair. -/
def hexDecode : List Char → Option (List Nat)
  | [] => some []
  | [_] => none
  | c1 :: c2 :: rest =>
    if isHexDigitCh c1 && isHexDigitCh c2 then
      (hexDecode rest).map (fun bs => (16 * hexVal c1 + hexVal c2) :: bs)
    else none

/-- Whitespace as far as the trimming in these parsers is concerned. -/
def isWS (c : Char) : Bool :=
  c = ' ' || c = '\t' || c = '\n' || c = '\r'

/-- `str::trim`: drop leading and trailing whitespace. -/
def trimChars (s : List Char) : List Char :=
  ((s.dropWhile isWS).reverse.dropWhile isWS).reverse

/-- `str::split_once(':')`: split at the first occurrence of the
separator, `none` when it does not occur. -/
def splitFirst (sep : Char) : List Char → Option (List Char × List Char)
  | [] => none
  | c :: rest =>
    if c = sep then some ([], rest)
    else (splitFirst sep rest).map (fun p => (c :: p.1, p.2))

/-- `char::to_ascii_lowercase`. -/
def lowerAscii (c : Char) : Char :=
  if 'A' ≤ c && c ≤ 'Z' then Char.ofNat (c.toNat + 32) else c

/-- `str::eq_ignore_ascii_case`. -/
def eqIgnoreAsciiCase (a b : List Char) : Bool :=
  a.map lowerAscii == b.map lowerAscii

/-- Errors of `parse_blake3_handle`. -/
inductive HandleErr where
  | unsupportedProtocol
  | hexDecodeFailed
  | wrongLength
deriving DecidableEq, Repr

/-- `parse_blake3_handle` (branch.rs:1393): trim, strip an optional
case-insensitive `blake3:` protocol prefix (any other protocol is an
error), hex-decode, and require exactly 32 bytes. -/
def parse_blake3_handle (s : List Char) : Except HandleErr (List Nat) :=
  let t := trimChars s
  let hexPart : Except HandleErr (List Char) :=
    match splitFirst ':' t with
    | some (proto, rest) =>
      if eqIgnoreAsciiCase proto ("blake3".toList) then .ok rest
      else .error .unsupportedProtocol
    | none => .ok t
  match hexPart with
  | .error e => .error e
  | .ok hp =>
    match hexDecode hp with
    | none => .error .hexDecodeFailed
    | some raw => if raw.length = 32 then .ok raw else .error .wrongLength

/-- 64 hex characters, as the spec describes the hash part. -/
def isHex64 (l : List Char) : Prop :=
  l.length = 64 ∧ ∀ c ∈ l, isHexDigitCh c = true

/-- The claim's characterization of accepted handle strings: after
trimming, 64 hex characters optionally preceded by a case-insensitive
`blake3` protocol prefix and a colon. -/
def handleSpec (s : List Char) : Prop :=
  isHex64 (trimChars s) ∨
  ∃ proto rest, trimChars s = proto ++ ':' :: rest ∧
    eqIgnoreAsciiCase proto ("blake3".toList) = true ∧ isHex64 rest

theorem hexDecode_length :
    ∀ (l : List Char) (raw : List Nat), hexDecode l = some raw →
      l.length = 2 * raw.length := by
  intro l
  induction l using hexDecode.induct with
  | case1 =>
    intro raw h
    simp [hexDecode] at h
    subst h
    simp
  | case2 c => intro raw h; simp [hexDecode] at h
  | case3 c1 c2 rest hcond ih =>
    intro raw h
    rw [hexDecode, if_pos hcond] at h
    obtain ⟨bs, hbs, hraw⟩ := Option.map_eq_some'.mp h
    subst hraw
    have := ih bs hbs
    simp [this]
    ring
  | case4 c1 c2 rest hcond =>
    intro raw h
    rw [hexDecode, if_neg hcond] at h
    simp at h

theorem hexDecode_allhex :
    ∀ (l : List Char) (raw : List Nat), hexDecode l = some raw →
      ∀ c ∈ l, isHexDigitCh c = true := by
  intro l
  induction l using hexDecode.induct with
  | case1 => intro raw _ c hc; simp at hc
  | case2 c0 => intro raw h; simp [hexDecode] at h
  | case3 c1 c2 rest hcond ih =>
    intro raw h c hc
    rw [hexDecode, if_pos hcond] at h
    obtain ⟨bs, hbs, _⟩ := Option.map_eq_some'.mp h
    simp only [Bool.and_eq_true] at hcond
    rcases List.mem_cons.mp hc with rfl | hc2
    · exact hcond.1
    · rcases List.mem_cons.mp hc2 with rfl | hc3
      · exact hcond.2
      · exact ih bs hbs c hc3
  | case4 c1 c2 rest hcond =>
    intro raw h
    rw [hexDecode, if_neg hcond] at h
    simp at h

theorem hexDecode_exists :
    ∀ l : List Char, (∀ c ∈ l, isHexDigitCh c = true) → 2 ∣ l.length →
      (hexDecode l).isSome := by
  intro l
  induction l using hexDecode.induct with
  | case1 => intro _ _; simp [hexDecode]
  | case2 c0 => intro _ hdvd; simp at hdvd
  | case3 c1 c2 rest hcond ih =>
    intro hall hdvd
    rw [hexDecode, if_pos hcond]
    have hrest := ih (fun c hc => hall c (by simp [hc]))
      (by simp at hdvd ⊢; omega)
    simp [Option.isSome_map, hrest]
  | case4 c1 c2 rest hcond =>
    intro hall _
    exact absurd (by simp [hall c1 (by simp), hall c2 (by simp)]) hcond

theorem hexOk_iff (l : List Char) :
    (∃ raw, hexDecode l = some raw ∧ raw.length = 32) ↔ isHex64 l := by
  constructor
  · rintro ⟨raw, hr, h32⟩
    exact ⟨by rw [hexDecode_length l raw hr, h32], hexDecode_allhex l raw hr⟩
  · rintro ⟨hlen, hall⟩
    have hs := hexDecode_exists l hall (by omega)
    obtain ⟨raw, hr⟩ := Option.isSome_iff_exists.mp hs
    exact ⟨raw, hr, by have := hexDecode_length l raw hr; omega⟩

theorem splitFirst_none {sep : Char} :
    ∀ {l : List Char}, splitFirst sep l = none → sep ∉ l := by
  intro l
  induction l with
  | nil => intro _; simp
  | cons c rest ih =>
    intro h
    rw [splitFirst] at h
    by_cases hc : c = sep
    · simp [hc] at h
    · rw [if_neg hc] at h
      have hnone := Option.map_eq_none'.mp h
      intro hmem
      rcases List.mem_cons.mp hmem with heq | hmem2
      · exact hc heq.symm
      · exact ih hnone hmem2

theorem splitFirst_some {sep : Char} :
    ∀ {l a b}, splitFirst sep l = some (a, b) → l = a ++ sep :: b ∧ sep ∉ a := by
  intro l
  induction l with
  | nil => intro a b h; simp [splitFirst] at h
  | cons c rest ih =>
    intro a b h
    rw [splitFirst] at h
    by_cases hc : c = sep
    · rw [if_pos hc] at h
      have hab : ([] : List Char) = a ∧ rest = b := by
        have := Option.some.inj h
        exact ⟨congrArg Prod.fst this, congrArg Prod.snd this⟩
      obtain ⟨ha, hb⟩ := hab
      subst ha
      subst hb
      subst hc
      exact ⟨rfl, by simp⟩
    · rw [if_neg hc] at h
      obtain ⟨p, hp, heq⟩ := Option.map_eq_some'.mp h
      obtain ⟨p1, p2⟩ := p
      obtain ⟨hrest, hnp⟩ := ih hp
      have ha : c :: p1 = a := congrArg Prod.fst heq
      have hb : p2 = b := congrArg Prod.snd heq
      subst ha
      subst hb
      constructor
      · rw [hrest]
        rfl
      · intro hmem
        rcases List.mem_cons.mp hmem with heq2 | hmem2
        · exact hc heq2.symm
        · exact hnp hmem2

theorem splitFirst_append {sep : Char} :
    ∀ (a b : List Char), sep ∉ a → splitFirst sep (a ++ sep :: b) = some (a, b) := by
  intro a
  induction a with
  | nil => intro b _; simp [splitFirst]
  | cons c rest ih =>
    intro b hna
    rw [List.cons_append, splitFirst]
    have hc : ¬ c = sep := fun h => hna (by simp [h])
    rw [if_neg hc, ih b (fun h => hna (List.mem_cons_of_mem _ h))]
    rfl

theorem proto_no_colon {proto : List Char}
    (heq : eqIgnoreAsciiCase proto ("blake3".toList) = true) : ':' ∉ proto := by
  intro hmem
  unfold eqIgnoreAsciiCase at heq
  have h1 : proto.map lowerAscii = ("blake3".toList).map lowerAscii := eq_of_beq heq
  have h2 : lowerAscii ':' ∈ proto.map lowerAscii := List.mem_map_of_mem _ hmem
  rw [h1] at h2
  revert h2
  decide

theorem decode32_isOk (l : List Char) :
    (Except.isOk
      (match hexDecode l with
        | none => (Except.error HandleErr.hexDecodeFailed : Except HandleErr (List Nat))
        | some raw =>
          if raw.length = 32 then Except.ok raw
          else Except.error HandleErr.wrongLength)) = true ↔ isHex64 l := by
  rw [← hexOk_iff]
  cases hdec : hexDecode l with
  | none => simp [Except.isOk, Except.toBool]
  | some raw =>
    by_cases h32 : raw.length = 32
    · simp [h32, Except.isOk, Except.toBool]
    · simp [h32, Except.isOk, Except.toBool]

/-- C8: `parse_blake3_handle` succeeds exactly on strings that, after
trimming whitespace, consist of 64 hex characters optionally preceded by
a case-insensitively `blake3` protocol prefix and a colon; any other
protocol prefix, or a hex part not decoding to exactly 32 bytes, is
rejected with an error. -/
theorem parse_blake3_handle_correct (s : List Char) :
    (parse_blake3_handle s).isOk = true ↔ handleSpec s := by
  unfold parse_blake3_handle handleSpec
  cases hsp : splitFirst ':' (trimChars s) with
  | none =>
    simp only [hsp]
    rw [decode32_isOk]
    constructor
    · intro h
      exact Or.inl h
    · rintro (h | ⟨p2, r2, ht2, _, _⟩)
      · exact h
      · exfalso
        apply splitFirst_none hsp
        rw [ht2]
        exact List.mem_append_right _ (List.mem_cons_self _ _)
  | some pr =>
    obtain ⟨proto, rest⟩ := pr
    obtain ⟨hteq, hnp⟩ := splitFirst_some hsp
    simp only [hsp]
    by_cases heqi : eqIgnoreAsciiCase proto ("blake3".toList) = true
    · rw [if_pos heqi]
      simp only []
      rw [decode32_isOk]
      constructor
      · intro hhex
        exact Or.inr ⟨proto, rest, hteq, heqi, hhex⟩
      · rintro (⟨hlen, hall⟩ | ⟨p2, r2, ht2, heq2, hhex2⟩)
        · exfalso
          have hcolon : ':' ∈ trimChars s := by
            rw [hteq]
            exact List.mem_append_right _ (List.mem_cons_self _ _)
          have := hall ':' hcolon
          simp [isHexDigitCh] at this
        · have hnp2 := proto_no_colon heq2
          have hdet := splitFirst_append p2 r2 hnp2
          rw [← ht2, hsp] at hdet
          have h2 : rest = r2 := congrArg Prod.snd (Option.some.inj hdet)
          rw [← h2] at hhex2
          exact hhex2
    · rw [if_neg heqi]
      simp only [Except.isOk]
      constructor
      · intro h
        simp [Except.toBool] at h
      · rintro (⟨hlen, hall⟩ | ⟨p2, r2, ht2, heq2, hhex2⟩)
        · exfalso
          have hcolon : ':' ∈ trimChars s := by
            rw [hteq]
            exact List.mem_append_right _ (List.mem_cons_self _ _)
          have := hall ':' hcolon
          simp [isHexDigitCh] at this
        · exfalso
          have hnp2 := proto_no_colon heq2
          have hdet := splitFirst_append p2 r2 hnp2
          rw [← ht2, hsp] at hdet
          have h1 : proto = p2 := congrArg Prod.fst (Option.some.inj hdet)
          rw [← h1] at heq2
          exact heqi heq2

/-- Errors of `parse_branch_id_hex`. -/
inductive BranchIdErr where
  | decodeFailed
  | wrongLength
  | nilId
deriving DecidableEq, Repr

/-- `parse_branch_id_hex` (branch.rs:1384): hex-decode, require exactly 16
bytes, and reject the nil id.  The rejection of the all-zero id models
`Id::new` of the support library, whose contract the error message
"branch id cannot be nil" pins down (spec §3: a `BranchId` is a non-nil
16-byte identifier). -/
def parse_branch_id_hex (s : List Char) : Except BranchIdErr (List Nat) :=
  match hexDecode s with
  | none => .error .decodeFailed
  | some raw =>
    if raw.length = 16 then
      if raw = List.replicate 16 0 then .error .nilId else .ok raw
    else .error .wrongLength

/-- C9: branch-id parsing fails with the nil-id error on every input whose
hex decoding is exactly 16 zero bytes, fails on any input not decoding to
exactly 16 bytes, and every successfully parsed id is a non-nil 16-byte
value — so no branch command (inspect, delete, set, reflog, history,
stats, consolidate, all of which go through `parse_branch_id_hex`) ever
operates on the all-zero branch id. -/
theorem parse_branch_id_nonnil :
    (∀ s : List Char, hexDecode s = some (List.replicate 16 0) →
      parse_branch_id_hex s = .error .nilId) ∧
    (∀ (s : List Char) (raw : List Nat), hexDecode s = some raw → raw.length ≠ 16 →
      parse_branch_id_hex s = .error .wrongLength) ∧
    (∀ s : List Char, hexDecode s = none → parse_branch_id_hex s = .error .decodeFailed) ∧
    (∀ (s : List Char) (raw : List Nat), parse_branch_id_hex s = .ok raw →
      hexDecode s = some raw ∧ raw.length = 16 ∧ raw ≠ List.replicate 16 0) := by
  refine ⟨?_, ?_, ?_, ?_⟩
  · intro s h
    unfold parse_branch_id_hex
    rw [h]
    simp
  · intro s raw h hne
    unfold parse_branch_id_hex
    rw [h]
    simp [hne]
  · intro s h
    unfold parse_branch_id_hex
    rw [h]
  · intro s raw h
    unfold parse_branch_id_hex at h
    cases hdec : hexDecode s with
    | none =>
      rw [hdec] at h
      simp at h
    | some raw2 =>
      rw [hdec] at h
      by_cases h16 : raw2.length = 16
      · by_cases hnil : raw2 = List.replicate 16 0
        · simp [h16, hnil] at h
        · simp only [h16, if_true, hnil, if_false, Except.ok.injEq] at h
          subst h
          exact ⟨rfl, h16, hnil⟩
      · simp [h16] at h

/-- Witness for C9: the all-zero 32-hex-char input is rejected as nil, and
a concrete accepted input decodes to a non-nil 16-byte id. -/
theorem parse_branch_id_nonnil_witness :
    parse_branch_id_hex (List.replicate 32 '0') = .error .nilId ∧
    (hexDecode (List.replicate 31 '0' ++ ['1']) = some (List.replicate 15 0 ++ [1]) ∧
      (List.replicate 15 0 ++ [1] : List Nat).length = 16 ∧
      (List.replicate 15 0 ++ [1] : List Nat) ≠ List.replicate 16 0) := by
  constructor
  · exact parse_branch_id_nonnil.1 (List.replicate 32 '0') (by decide)
  · exact parse_branch_id_nonnil.2.2.2 (List.replicate 31 '0' ++ ['1'])
      (List.replicate 15 0 ++ [1]) (by rfl)

/-! ## Reflog ring-buffer behavior (C5) -/

/-- The last `n` elements of a list, in order. -/
def lastN {α : Type} (n : Nat) (l : List α) : List α :=
  (l.reverse.take n).reverse

theorem lastN_of_le {α : Type} {n : Nat} {l : List α} (h : l.length ≤ n) :
    lastN n l = l := by
  unfold lastN
  rw [List.take_of_length_le (by simpa using h)]
  simp

theorem lastN_cons_of_le {α : Type} {n : Nat} {x : α} {l : List α} (h : n ≤ l.length) :
    lastN n (x :: l) = lastN n l := by
  unfold lastN
  rw [show (x :: l).reverse = l.reverse ++ [x] by simp]
  rw [List.take_append_of_le_length (by simpa using h)]

theorem lastN_length_le {α : Type} (n : Nat) (l : List α) : (lastN n l).length ≤ n := by
  unfold lastN
  simp [List.length_take]

theorem ringPush_length {limit : Nat} {acc : List ReflogEntry} (e : ReflogEntry)
    (hlim : 1 ≤ limit) (hacc : acc.length ≤ limit) :
    (ringPush limit e acc).length ≤ limit := by
  unfold ringPush
  by_cases h : acc.length = limit
  · simp [h]
    omega
  · simp [h]
    omega

theorem ringPush_lastN {limit : Nat} {acc : List ReflogEntry} (e : ReflogEntry)
    (rest : List ReflogEntry) (hlim : 1 ≤ limit) (hacc : acc.length ≤ limit) :
    lastN limit (ringPush limit e acc ++ rest) = lastN limit (acc ++ e :: rest) := by
  unfold ringPush
  by_cases h : acc.length = limit
  · rw [if_pos h]
    cases acc with
    | nil => simp at h; omega
    | cons a acc2 =>
      have hshape : (a :: acc2) ++ e :: rest = a :: ((acc2 ++ [e]) ++ rest) := by simp
      have hdrop : (a :: acc2).drop 1 = acc2 := rfl
      rw [hshape, hdrop]
      rw [lastN_cons_of_le]
      simp only [List.length_append, List.length_cons] at h ⊢
      omega
  · rw [if_neg h]
    simp

theorem reflog_fold (pv : PileView) (bid limit : Nat) (hlim : 1 ≤ limit) :
    ∀ (evs : List Event) (acc : List ReflogEntry), acc.length ≤ limit →
      evs.foldl (reflogStep pv bid limit) acc =
        lastN limit (acc ++ reflogMatches pv bid evs) := by
  intro evs
  induction evs with
  | nil =>
    intro acc hacc
    simp [reflogMatches]
    exact (lastN_of_le hacc).symm
  | cons ev evs ih =>
    intro acc hacc
    rw [List.foldl_cons]
    cases ev with
    | set off id meta =>
      by_cases hid : id = bid
      · rw [show reflogStep pv bid limit acc (.set off id meta) =
            ringPush limit (mkSetEntry pv off meta) acc by simp [reflogStep, hid]]
        rw [ih _ (ringPush_length (mkSetEntry pv off meta) hlim hacc)]
        rw [show reflogMatches pv bid (.set off id meta :: evs) =
            mkSetEntry pv off meta :: reflogMatches pv bid evs by
          simp [reflogMatches, hid]]
        exact ringPush_lastN _ _ hlim hacc
      · rw [show reflogStep pv bid limit acc (.set off id meta) = acc by
          simp [reflogStep, hid]]
        rw [ih _ hacc]
        rw [show reflogMatches pv bid (.set off id meta :: evs) =
            reflogMatches pv bid evs by simp [reflogMatches, hid]]
    | del off id =>
      by_cases hid : id = bid
      · rw [show reflogStep pv bid limit acc (.del off id) =
            ringPush limit (mkDelEntry off) acc by simp [reflogStep, hid]]
        rw [ih _ (ringPush_length (mkDelEntry off) hlim hacc)]
        rw [show reflogMatches pv bid (.del off id :: evs) =
            mkDelEntry off :: reflogMatches pv bid evs by simp [reflogMatches, hid]]
        exact ringPush_lastN _ _ hlim hacc
      · rw [show reflogStep pv bid limit acc (.del off id) = acc by
          simp [reflogStep, hid]]
        rw [ih _ hacc]
        rw [show reflogMatches pv bid (.del off id :: evs) =
            reflogMatches pv bid evs by simp [reflogMatches, hid]]

/-- The raw file of the claim's scenario: branch-set records with handles
`11` then `12`, then a tombstone, all for branch id `5`. -/
def fScen : RawFile :=
  ⟨192, fun off =>
    if off = 0 then .branchRec 5 11
    else if off = 64 then .branchRec 5 12
    else if off = 128 then .tombRec 5
    else .unknown⟩

/-- C5 (amended): for `limit ≥ 1`, the reflog keeps exactly the last
`limit` matching branch records (evicting the oldest at capacity), hence
at most `limit` of them, and prints them latest-first; in particular the
scenario log Set(h1), Set(h2), Tombstone for one branch id prints, with
`limit = 10`: delete, set(h2), set(h1).  (For `limit = 0` the eviction
check only fires while the buffer is empty, so nothing is ever evicted —
see the counterexample.) -/
theorem reflog_bounded_ring :
    (∀ (pv : PileView) (bid limit : Nat) (evs : List Event), 1 ≤ limit →
      reflogEntries pv bid limit evs = lastN limit (reflogMatches pv bid evs) ∧
      (reflogEntries pv bid limit evs).length ≤ limit ∧
      reflogPrint pv bid limit evs = (reflogMatches pv bid evs).reverse.take limit) ∧
    (scan fScen = some (.ok [.set 0 5 11, .set 64 5 12, .del 128 5]) ∧
      (reflogPrint ⟨[]⟩ 5 10 [.set 0 5 11, .set 64 5 12, .del 128 5]).map
          (fun e => (e.kind, e.meta)) =
        [(RKind.del, none), (RKind.set, some 12), (RKind.set, some 11)]) := by
  constructor
  · intro pv bid limit evs hlim
    have h := reflog_fold pv bid limit hlim evs [] (by simp)
    rw [List.nil_append] at h
    refine ⟨h, ?_, ?_⟩
    · unfold reflogEntries
      rw [h]
      exact lastN_length_le _ _
    · unfold reflogPrint reflogEntries
      rw [h]
      unfold lastN
      simp
  · exact ⟨by rfl, by rfl⟩

/-- Counterexample to C5 as stated: with `limit = 0` the Rust eviction
check `entries.len() == limit` only matches the empty buffer, so both
matching records are retained — more than `limit`. -/
theorem reflog_limit_zero_counterexample :
    (reflogEntries ⟨[]⟩ 5 0 [.set 0 5 11, .set 64 5 12]).length = 2 ∧
    ¬ (reflogEntries ⟨[]⟩ 5 0 [.set 0 5 11, .set 64 5 12]).length ≤ 0 := by
  constructor
  · rfl
  · decide

/-- Witness for C5's amended theorem at the scenario instance. -/
theorem reflog_bounded_ring_witness :
    reflogPrint ⟨[]⟩ 5 10 [.set 0 5 11, .set 64 5 12, .del 128 5] =
      (reflogMatches ⟨[]⟩ 5 [.set 0 5 11, .set 64 5 12, .del 128 5]).reverse.take 10 := by
  exact (reflog_bounded_ring.1 ⟨[]⟩ 5 10 [.set 0 5 11, .set 64 5 12, .del 128 5]
    (by decide)).2.2

/-! ## Journal latest-record semantics (C6) -/

/-- What one event does to the tracked state of a fixed branch id. -/
def jstateStep (id : Nat) (cur : Option JState) (ev : Event) : Option JState :=
  match ev with
  | .set off i m =>
    if i = id then some { offset := off, kind := .set, meta := some m, lastSet := some m }
    else cur
  | .del off i =>
    if i = id then
      some { offset := off, kind := .del, meta := none
             lastSet := (cur.map (·.lastSet)).getD none }
    else cur

/-- The latest-record state the journal pass accumulates for one id. -/
def jstateOf (evs : List Event) (id : Nat) : Option JState :=
  evs.foldl (jstateStep id) none

theorem jLookup_upsert (i j : Nat) (st : JState) :
    ∀ states, jLookup i (upsert j st states) =
      if j = i then some st else jLookup i states := by
  intro states
  induction states with
  | nil => simp [upsert, jLookup]
  | cons hd tl ih =>
    obtain ⟨k, v⟩ := hd
    by_cases hkj : k = j
    · subst hkj
      by_cases hki : k = i <;> simp [upsert, jLookup, hki, ih]
    · by_cases hki : k = i
      · subst hki
        have hji : ¬ j = k := fun h => hkj h.symm
        simp [upsert, jLookup, hkj, hji]
      · simp [upsert, jLookup, hkj, hki, ih]

theorem jLookup_journalStep (states : List (Nat × JState)) (id : Nat) (ev : Event) :
    jLookup id (journalStep states ev) = jstateStep id (jLookup id states) ev := by
  cases ev with
  | set off i m =>
    rw [journalStep, jstateStep, jLookup_upsert]
  | del off i =>
    rw [journalStep, jstateStep, jLookup_upsert]
    by_cases hi : i = id
    · subst hi
      rfl
    · simp [hi]

theorem jLookup_fold :
    ∀ (evs : List Event) (states : List (Nat × JState)) (id : Nat),
      jLookup id (evs.foldl journalStep states) =
        evs.foldl (jstateStep id) (jLookup id states) := by
  intro evs
  induction evs with
  | nil => intro states id; rfl
  | cons ev evs ih =>
    intro states id
    rw [List.foldl_cons, List.foldl_cons, ih, jLookup_journalStep]

theorem jLookup_journalStates (evs : List Event) (id : Nat) :
    jLookup id (journalStates evs) = jstateOf evs id := by
  unfold journalStates jstateOf
  rw [jLookup_fold]
  rfl

theorem lastKind_none {evs : List Event} {id : Nat} (h : lastKind evs id = none) :
    lastSetMeta evs id = none := by
  unfold lastKind at h
  unfold lastSetMeta
  induction evs with
  | nil => rfl
  | cons ev evs ih =>
    cases ev with
    | set off i m =>
      by_cases hi : i = id
      · exfalso
        rw [List.filterMap_cons] at h
        simp only [hi, if_pos rfl] at h
        rw [List.getLast?_eq_none_iff] at h
        simp at h
      · rw [List.filterMap_cons] at h ⊢
        simp only [hi, if_neg hi] at h ⊢
        exact ih h
    | del off i =>
      by_cases hi : i = id
      · exfalso
        rw [List.filterMap_cons] at h
        simp only [hi, if_pos rfl] at h
        rw [List.getLast?_eq_none_iff] at h
        simp at h
      · rw [List.filterMap_cons] at h ⊢
        simp only [hi, if_neg hi] at h ⊢
        exact ih h

theorem jstateOf_spec (evs : List Event) (id : Nat) :
    ((jstateOf evs id).map (·.kind) = lastKind evs id) ∧
    (∀ st, jstateOf evs id = some st → st.lastSet = lastSetMeta evs id) := by
  induction evs using List.reverseRecOn with
  | nil =>
    refine ⟨rfl, ?_⟩
    intro st h
    simp [jstateOf] at h
  | append_singleton evs ev ih =>
    have hfold : jstateOf (evs ++ [ev]) id = jstateStep id (jstateOf evs id) ev := by
      unfold jstateOf
      rw [List.foldl_append]
      rfl
    cases ev with
    | set off i m =>
      by_cases hi : i = id
      · subst hi
        constructor
        · rw [hfold]
          unfold jstateStep lastKind
          rw [List.filterMap_append]
          simp
        · intro st h
          rw [hfold] at h
          simp only [jstateStep, eq_self_iff_true, if_true] at h
          injection h with h
          subst h
          unfold lastSetMeta
          rw [List.filterMap_append]
          simp
      · have hk : lastKind (evs ++ [.set off i m]) id = lastKind evs id := by
          unfold lastKind
          rw [List.filterMap_append]
          simp [hi]
        have hm : lastSetMeta (evs ++ [.set off i m]) id = lastSetMeta evs id := by
          unfold lastSetMeta
          rw [List.filterMap_append]
          simp [hi]
        have hj : jstateOf (evs ++ [.set off i m]) id = jstateOf evs id := by
          rw [hfold]
          simp [jstateStep, hi]
        rw [hk, hm, hj]
        exact ih
    | del off i =>
      by_cases hi : i = id
      · subst hi
        have hm : lastSetMeta (evs ++ [.del off i]) i = lastSetMeta evs i := by
          unfold lastSetMeta
          rw [List.filterMap_append]
          simp
        constructor
        · rw [hfold]
          unfold jstateStep lastKind
          rw [List.filterMap_append]
          simp
        · intro st h
          rw [hfold] at h
          simp only [jstateStep, eq_self_iff_true, if_true] at h
          injection h with h
          subst h
          rw [hm]
          cases hj : jstateOf evs i with
          | none =>
            have hk := ih.1
            rw [hj] at hk
            simp only [Option.map_none'] at hk
            rw [lastKind_none hk.symm]
            simp [hj]
          | some st2 =>
            simp only [hj, Option.map_some', Option.getD_some]
            exact ih.2 st2 hj
      · have hk : lastKind (evs ++ [.del off i]) id = lastKind evs id := by
          unfold lastKind
          rw [List.filterMap_append]
          simp [hi]
        have hm : lastSetMeta (evs ++ [.del off i]) id = lastSetMeta evs id := by
          unfold lastSetMeta
          rw [List.filterMap_append]
          simp
        have hj : jstateOf (evs ++ [.del off i]) id = jstateOf evs id := by
          rw [hfold]
          simp [jstateStep, hi]
        rw [hk, hm, hj]
        exact ih

/-- The branch ids tracked by the journal pass. -/
def keysOf (states : List (Nat × JState)) : List Nat := states.map Prod.fst

theorem keysOf_cons (k : Nat) (v : JState) (tl : List (Nat × JState)) :
    keysOf ((k, v) :: tl) = k :: keysOf tl := rfl

theorem mem_keys_upsert (i j : Nat) (st : JState) :
    ∀ states, i ∈ keysOf (upsert j st states) ↔ i = j ∨ i ∈ keysOf states := by
  intro states
  induction states with
  | nil => simp [upsert, keysOf]
  | cons hd tl ih =>
    obtain ⟨k, v⟩ := hd
    by_cases hkj : k = j
    · have h1 : upsert j st ((k, v) :: tl) = (k, st) :: tl := by rw [upsert, if_pos hkj]
      rw [h1, keysOf_cons, keysOf_cons]
      simp only [List.mem_cons]
      subst hkj
      tauto
    · have h1 : upsert j st ((k, v) :: tl) = (k, v) :: upsert j st tl := by
        rw [upsert, if_neg hkj]
      rw [h1, keysOf_cons, keysOf_cons]
      simp only [List.mem_cons]
      rw [ih]
      tauto

theorem keys_nodup_upsert (j : Nat) (st : JState) :
    ∀ states, (keysOf states).Nodup → (keysOf (upsert j st states)).Nodup := by
  intro states
  induction states with
  | nil => intro _; simp [upsert, keysOf]
  | cons hd tl ih =>
    obtain ⟨k, v⟩ := hd
    intro hnd
    rw [keysOf_cons] at hnd
    have hk := List.nodup_cons.mp hnd
    by_cases hkj : k = j
    · have h1 : upsert j st ((k, v) :: tl) = (k, st) :: tl := by rw [upsert, if_pos hkj]
      rw [h1, keysOf_cons]
      exact List.nodup_cons.mpr hk
    · have h1 : upsert j st ((k, v) :: tl) = (k, v) :: upsert j st tl := by
        rw [upsert, if_neg hkj]
      rw [h1, keysOf_cons]
      refine List.nodup_cons.mpr ⟨?_, ih hk.2⟩
      intro hmem
      rcases (mem_keys_upsert k j st tl).mp hmem with rfl | hmem2
      · exact hkj rfl
      · exact hk.1 hmem2

theorem journalStates_keys_nodup (evs : List Event) :
    (keysOf (journalStates evs)).Nodup := by
  suffices h : ∀ states, (keysOf states).Nodup →
      (keysOf (evs.foldl journalStep states)).Nodup by
    exact h [] (by simp [keysOf])
  induction evs with
  | nil => intro states h; exact h
  | cons ev evs ih =>
    intro states h
    rw [List.foldl_cons]
    apply ih
    cases ev with
    | set off i m => exact keys_nodup_upsert _ _ _ h
    | del off i => exact keys_nodup_upsert _ _ _ h

theorem jLookup_of_mem {states : List (Nat × JState)} {i : Nat} {st : JState}
    (hnd : (keysOf states).Nodup) (hmem : (i, st) ∈ states) :
    jLookup i states = some st := by
  induction states with
  | nil => simp at hmem
  | cons hd tl ih =>
    obtain ⟨k, v⟩ := hd
    rw [keysOf_cons] at hnd
    have hk := List.nodup_cons.mp hnd
    rcases List.mem_cons.mp hmem with heq | hmem2
    · injection heq with h1 h2
      subst h1
      subst h2
      rw [jLookup, if_pos rfl]
    · by_cases hki : k = i
      · exfalso
        subst hki
        exact hk.1 (List.mem_map_of_mem Prod.fst hmem2)
      · rw [jLookup, if_neg hki]
        exact ih hk.2 hmem2

theorem mem_of_jLookup {states : List (Nat × JState)} {i : Nat} {st : JState}
    (h : jLookup i states = some st) : (i, st) ∈ states := by
  induction states with
  | nil => simp [jLookup] at h
  | cons hd tl ih =>
    obtain ⟨k, v⟩ := hd
    rw [jLookup] at h
    by_cases hki : k = i
    · rw [if_pos hki] at h
      subst hki
      injection h with h
      subst h
      exact List.mem_cons_self _ _
    · rw [if_neg hki] at h
      exact List.mem_cons_of_mem _ (ih h)

theorem journalTake_all (pv : PileView) (limit : Nat) :
    ∀ (rows : List (Nat × JState)) (printed : Nat), rows.length + printed ≤ limit →
      journalTake pv true limit rows printed =
        (rows.filter (fun r => r.2.kind == RKind.del)).map (fun r => mkJRow pv r.1 r.2) := by
  intro rows
  induction rows with
  | nil => intro printed _; rfl
  | cons hd tl ih =>
    obtain ⟨id, st⟩ := hd
    intro printed hbound
    rw [journalTake]
    by_cases hdel : st.kind = RKind.del
    · rw [if_neg (by simp [hdel])]
      by_cases hstop : limit ≤ printed + 1
      · have htl : tl = [] := by
          simp only [List.length_cons] at hbound
          have : tl.length = 0 := by omega
          exact List.length_eq_zero.mp this
        subst htl
        simp [hstop, hdel]
      · rw [if_neg hstop]
        rw [ih (printed + 1) (by simp only [List.length_cons] at hbound; omega)]
        simp [hdel]
    · rw [if_pos ⟨rfl, hdel⟩]
      rw [ih printed (by simp only [List.length_cons] at hbound; omega)]
      simp [hdel]

theorem mkJRow_proj (pv : PileView) (i : Nat) (st : JState) :
    (mkJRow pv i st).id = i ∧ (mkJRow pv i st).kind = st.kind ∧
    (mkJRow pv i st).metaHandle =
      (match st.kind with | RKind.set => st.meta | RKind.del => st.lastSet) := by
  unfold mkJRow
  cases hmh : (match st.kind with | RKind.set => st.meta | RKind.del => st.lastSet) with
  | none => simp
  | some h =>
    cases hd : (if pv.present h then pv.decode h else none) with
    | none => simp [hd]
    | some ts => simp [hd]

/-- C6: the journal makes a single forward pass keeping only the latest
record per branch id, including tombstoned ids; with `deleted = true` (and
a limit that does not truncate) it reports exactly the ids whose latest
record is a tombstone, each with kind delete, with the metadata handle of
that id's most recent set record still reported, and each absent from the
live `branches()` index. -/
theorem journal_deleted_correct (pv : PileView) (evs : List Event) (limit : Nat)
    (hlim : (journalStates evs).length ≤ limit) :
    (∀ id, (∃ row ∈ journalPrint pv limit true evs, row.id = id) ↔
        lastKind evs id = some RKind.del) ∧
    (∀ row ∈ journalPrint pv limit true evs,
        row.kind = RKind.del ∧ row.metaHandle = lastSetMeta evs row.id ∧
        ¬ liveBranch evs row.id) := by
  have hperm : (sortByOffsetDesc (journalStates evs)).Perm (journalStates evs) :=
    List.mergeSort_perm _ _
  have hlen : (sortByOffsetDesc (journalStates evs)).length = (journalStates evs).length :=
    hperm.length_eq
  have hprint : journalPrint pv limit true evs =
      ((sortByOffsetDesc (journalStates evs)).filter
        (fun r => r.2.kind == RKind.del)).map (fun r => mkJRow pv r.1 r.2) := by
    unfold journalPrint
    exact journalTake_all pv limit (sortByOffsetDesc (journalStates evs)) 0 (by omega)
  have hmem_iff : ∀ row, row ∈ journalPrint pv limit true evs ↔
      ∃ p ∈ journalStates evs, p.2.kind = RKind.del ∧ row = mkJRow pv p.1 p.2 := by
    intro row
    rw [hprint]
    simp only [List.mem_map, List.mem_filter]
    constructor
    · rintro ⟨p, ⟨hp, hdel⟩, rfl⟩
      exact ⟨p, hperm.mem_iff.mp hp, by simpa using hdel, rfl⟩
    · rintro ⟨p, hp, hdel, rfl⟩
      exact ⟨p, ⟨hperm.mem_iff.mpr hp, by simp [hdel]⟩, rfl⟩
  constructor
  · intro id
    constructor
    · rintro ⟨row, hrow, rfl⟩
      obtain ⟨⟨i, st⟩, hp, hdel, rfl⟩ := (hmem_iff _).mp hrow
      rw [(mkJRow_proj pv i st).1]
      have hlk := jLookup_of_mem (journalStates_keys_nodup evs) hp
      rw [jLookup_journalStates] at hlk
      have hk := (jstateOf_spec evs i).1
      rw [hlk] at hk
      simp only [Option.map_some'] at hk
      rw [← hk, hdel]
    · intro hlk
      have hk := (jstateOf_spec evs id).1
      rw [hlk] at hk
      cases hj : jstateOf evs id with
      | none =>
        rw [hj] at hk
        simp at hk
      | some st =>
        rw [hj] at hk
        simp only [Option.map_some', Option.some.injEq] at hk
        have hmem : (id, st) ∈ journalStates evs :=
          mem_of_jLookup (by rw [jLookup_journalStates, hj])
        exact ⟨mkJRow pv id st, (hmem_iff _).mpr ⟨(id, st), hmem, hk, rfl⟩,
          (mkJRow_proj pv id st).1⟩
  · intro row hrow
    obtain ⟨⟨i, st⟩, hp, hdel, rfl⟩ := (hmem_iff _).mp hrow
    obtain ⟨hid, hkind, hmh⟩ := mkJRow_proj pv i st
    have hlk := jLookup_of_mem (journalStates_keys_nodup evs) hp
    rw [jLookup_journalStates] at hlk
    have hk := (jstateOf_spec evs i).1
    rw [hlk] at hk
    simp only [Option.map_some'] at hk
    have hls := (jstateOf_spec evs i).2 st hlk
    rw [hdel] at hmh
    simp only [] at hmh
    refine ⟨by rw [hkind, hdel], ?_, ?_⟩
    · rw [hid, hmh, hls]
    · rw [hid]
      unfold liveBranch
      rw [← hk, hdel]
      simp

/-- The witness log for C6: branch `7` is set then tombstoned, branch `8`
stays live. -/
def evsW : List Event := [.set 0 7 20, .del 64 7, .set 128 8 21]

/-- Witness for C6: on the concrete log, branch `7` (set then tombstoned)
is reported by `journal --deleted`, and every reported row is a delete
with the last set handle, absent from the live index. -/
theorem journal_deleted_correct_witness :
    (∃ row ∈ journalPrint ⟨[]⟩ 10 true evsW, row.id = 7) ∧
    (∀ row ∈ journalPrint ⟨[]⟩ 10 true evsW,
        row.kind = RKind.del ∧ row.metaHandle = lastSetMeta evsW row.id ∧
        ¬ liveBranch evsW row.id) := by
  have h := journal_deleted_correct ⟨[]⟩ evsW 10 (by decide)
  exact ⟨(h.1 7).mpr (by decide), h.2⟩

/-! ## Consolidate (branch.rs:1223) -/

/-- A pile plus its branch store: `branch` maps a branch id to its current
metadata handle (the latest non-tombstone record). -/
structure RepoState where
  pv : PileView
  branch : List (Nat × Nat)
deriving DecidableEq, Repr

/-- `pile.head(bid)` (spec §4.3): the branch's current metadata handle. -/
def RepoState.head (st : RepoState) (bid : Nat) : Option Nat :=
  st.branch.lookup bid

/-- Consolidate's head extraction (branch.rs:1276-1286): requires the
metadata blob present and decodable, and takes the **first**
`repo_head_attr` triple (the loop breaks). -/
def consolidateHeadOf (st : RepoState) (mh : Nat) : Option Nat :=
  if st.pv.present mh then (st.pv.decode mh).bind (fun ts => ts.heads.head?) else none

/-- The head consolidate sees for a branch id, if the branch exists. -/
def headOf (st : RepoState) (bid : Nat) : Option Nat :=
  match st.head bid with
  | none => none
  | some mh => consolidateHeadOf st mh

/-- Deduplicate, keeping first occurrences (branch.rs:1242-1249
`HashSet::insert` guard). -/
def dedupFirstGo : List Nat → List Nat → List Nat
  | [], _ => []
  | x :: xs, seen =>
    if x ∈ seen then dedupFirstGo xs seen else x :: dedupFirstGo xs (x :: seen)

/-- The deduplicated branch-id list, in first-occurrence order. -/
def dedupFirst (l : List Nat) : List Nat := dedupFirstGo l []

/-- Resolve every candidate branch to its current head, failing on the
first id without a branch-store entry (branch.rs:1270-1289). -/
def resolveAll (st : RepoState) : List Nat → Except Nat (List (Nat × Option Nat))
  | [] => .ok []
  | bid :: rest =>
    match st.head bid with
    | none => .error bid
    | some mh =>
      match resolveAll st rest with
      | .error e => .error e
      | .ok tl => .ok ((bid, consolidateHeadOf st mh) :: tl)

/-- Errors of `Consolidate`. -/
inductive ConsErr where
  | branchNotFound (bid : Nat)
  | noHeads
deriving DecidableEq, Repr

/-- What `Consolidate` did. -/
inductive ConsOutcome where
  | dryRun
  | noop
  | created (commitH newId : Nat)
deriving DecidableEq, Repr

/-- Modelled from the spec: `commit_metadata` of the support library
(missing from src/), per spec §3 Commit — "a blob containing zero or more
parent commit handles, one content handle, optional signature and
timestamp".  The produced triple set carries the given parents and
exactly one content handle. -/
def commit_metadata (parents : List Nat) (contentH : Nat) : TS :=
  { parents := parents, contents := [contentH], branchRefs := [], heads := [], names := [] }

/-- Modelled from the spec: the branch-metadata blob that
`create_branch_with_key` (missing from src/) writes, per spec §3
BranchMetadata — "a blob containing a name-blob handle and a head commit
handle" (plus the branch-id attribute the history/recovery scans read). -/
def branch_metadata (newId commitH nameH : Nat) : TS :=
  { parents := [], contents := [], branchRefs := [newId], heads := [commitH], names := [nameH] }

/-- `Command::Consolidate` (branch.rs:1223-1348).  The hash of the new
commit blob (`commitH`), of the new branch-metadata blob (`newMetaH`),
the content handle the library embeds (`contentH`), the fresh branch id
(`newId`) and the name-blob handle (`nameH`) are parameters standing for
the library's hash/randomness outputs.  Blob appends carry record
timestamp 0 (never observed by this command). -/
def consolidate (st : RepoState) (rawIds : List Nat) (dryRun : Bool)
    (contentH commitH newMetaH newId nameH : Nat) :
    Except ConsErr (ConsOutcome × RepoState) :=
  match resolveAll st (dedupFirst rawIds) with
  | .error bid => .error (.branchNotFound bid)
  | .ok candidates =>
    if dryRun then .ok (.dryRun, st)
    else if candidates.length = 1 then .ok (.noop, st)
    else if (candidates.filterMap (·.2)).isEmpty then .error .noHeads
    else
      .ok (.created commitH newId,
        ⟨⟨st.pv.blobs ++
          [(commitH, ⟨0, some (commit_metadata (candidates.filterMap (·.2)) contentH), none⟩),
           (newMetaH, ⟨0, some (branch_metadata newId commitH nameH), none⟩)]⟩,
         st.branch ++ [(newId, newMetaH)]⟩)

theorem lookup_append {α β : Type} [BEq α] (l1 l2 : List (α × β)) (k : α) :
    (l1 ++ l2).lookup k =
      match l1.lookup k with
      | some v => some v
      | none => l2.lookup k := by
  induction l1 with
  | nil => simp [List.lookup]
  | cons hd tl ih =>
    obtain ⟨k2, v2⟩ := hd
    rw [List.cons_append, List.lookup, List.lookup]
    cases hbeq : k == k2 with
    | true => simp
    | false => simpa using ih

theorem resolveAll_ok {st : RepoState} :
    ∀ {ids : List Nat}, (∀ b ∈ ids, (st.head b).isSome) →
      resolveAll st ids = .ok (ids.map (fun b => (b, headOf st b))) := by
  intro ids
  induction ids with
  | nil => intro _; rfl
  | cons bid rest ih =>
    intro hall
    have hbid := hall bid (List.mem_cons_self _ _)
    cases hmh : st.head bid with
    | none => rw [hmh] at hbid; simp at hbid
    | some mh =>
      rw [resolveAll, hmh, ih (fun b hb => hall b (List.mem_cons_of_mem _ hb))]
      have : headOf st bid = consolidateHeadOf st mh := by
        unfold headOf
        rw [hmh]
      rw [List.map_cons, this]

/-- C1 (amended): consolidate over k ≥ 2 distinct branch ids that all
resolve to an existing branch, at least one of which has a current head,
creates exactly one new merge commit whose parent set equals exactly the
set of current heads of the candidate branches, stores it, and creates a
new branch pointing at it, leaving every candidate branch's stored head
unchanged; a single distinct candidate after deduplication is a no-op.
(When no candidate has a head the command fails instead — see the
counterexample.) -/
theorem consolidate_correct :
    (∀ (st : RepoState) (rawIds ids : List Nat)
        (contentH commitH newMetaH newId nameH : Nat),
      dedupFirst rawIds = ids →
      2 ≤ ids.length →
      (∀ b ∈ ids, (st.head b).isSome) →
      (∃ b ∈ ids, (headOf st b).isSome) →
      st.head newId = none →
      ∃ st2,
        consolidate st rawIds false contentH commitH newMetaH newId nameH =
          .ok (.created commitH newId, st2) ∧
        st2.pv.blobs = st.pv.blobs ++
          [(commitH, ⟨0, some (commit_metadata (ids.filterMap (headOf st)) contentH), none⟩),
           (newMetaH, ⟨0, some (branch_metadata newId commitH nameH), none⟩)] ∧
        (st.pv.present commitH = false →
          st2.pv.decode commitH =
            some (commit_metadata (ids.filterMap (headOf st)) contentH)) ∧
        (∀ h, h ∈ (commit_metadata (ids.filterMap (headOf st)) contentH).parents ↔
          ∃ b ∈ ids, headOf st b = some h) ∧
        st2.head newId = some newMetaH ∧
        (∀ b ∈ ids, st2.head b = st.head b)) ∧
    (∀ (st : RepoState) (rawIds : List Nat) (b : Nat)
        (contentH commitH newMetaH newId nameH : Nat),
      dedupFirst rawIds = [b] →
      (st.head b).isSome →
      consolidate st rawIds false contentH commitH newMetaH newId nameH =
        .ok (.noop, st)) := by
  constructor
  · intro st rawIds ids contentH commitH newMetaH newId nameH hids hlen hres hhead hfresh
    unfold consolidate
    rw [hids, resolveAll_ok hres]
    have hfm : (ids.map (fun b => (b, headOf st b))).filterMap (·.2) =
        ids.filterMap (headOf st) := by
      rw [List.filterMap_map]
      rfl
    have hne1 : ¬ (ids.map (fun b => (b, headOf st b))).length = 1 := by
      rw [List.length_map]
      omega
    have hnemp : (ids.filterMap (headOf st)).isEmpty = false := by
      obtain ⟨b, hb, hsome⟩ := hhead
      obtain ⟨h, hh⟩ := Option.isSome_iff_exists.mp hsome
      have : h ∈ ids.filterMap (headOf st) := List.mem_filterMap.mpr ⟨b, hb, hh⟩
      cases hl : ids.filterMap (headOf st) with
      | nil => rw [hl] at this; simp at this
      | cons a tl => simp
    simp only [hfm, Bool.false_eq_true, if_false, hne1, hnemp]
    refine ⟨_, rfl, rfl, ?_, ?_, ?_, ?_⟩
    · intro hpresf
      have hnone : st.pv.blobs.lookup commitH = none := by
        unfold PileView.present at hpresf
        exact Option.not_isSome_iff_eq_none.mp (by simp [hpresf])
      unfold PileView.decode
      rw [lookup_append, hnone]
      simp [List.lookup]
    · intro h
      unfold commit_metadata
      simp only []
      exact List.mem_filterMap
    · unfold RepoState.head at hfresh ⊢
      rw [lookup_append, hfresh]
      simp [List.lookup]
    · intro b hb
      have hsome := hres b hb
      obtain ⟨mh, hmh⟩ := Option.isSome_iff_exists.mp hsome
      unfold RepoState.head at hmh ⊢
      rw [lookup_append, hmh]
  · intro st rawIds b contentH commitH newMetaH newId nameH hids hsome
    unfold consolidate
    rw [hids, resolveAll_ok (by
      intro x hx
      rw [List.mem_singleton] at hx
      subst hx
      exact hsome)]
    simp

/-- Two branches whose metadata blobs are absent from the blob store: both
resolve in the branch store, but neither has a recoverable head. -/
def stHeadless : RepoState := ⟨⟨[]⟩, [(1, 100), (2, 101)]⟩

/-- Counterexample to C1 as stated: two distinct branch ids that both
resolve to an existing branch, yet consolidate fails with "no branch
heads available to attach" instead of creating a merge commit (whose
parent set would have been empty) and a new branch. -/
theorem consolidate_headless_counterexample :
    (stHeadless.head 1).isSome = true ∧ (stHeadless.head 2).isSome = true ∧
    dedupFirst [1, 2] = [1, 2] ∧ (1 : Nat) ≠ 2 ∧
    consolidate stHeadless [1, 2] false 900 901 902 903 904 = .error .noHeads := by
  refine ⟨rfl, rfl, rfl, by omega, rfl⟩

/-- A two-branch pile where both branches have heads (`60` and `61`). -/
def stW : RepoState :=
  ⟨⟨[(100, ⟨0, some ⟨[], [], [1], [60], []⟩, none⟩),
     (101, ⟨0, some ⟨[], [], [2], [61], []⟩, none⟩)]⟩,
   [(1, 100), (2, 101)]⟩

/-- Witness for C1 on `stW`: consolidating branches 1 and 2 creates the
merge commit over heads 60 and 61 and a new branch, and a duplicated
single id is a no-op. -/
theorem consolidate_correct_witness :
    (∃ st2,
      consolidate stW [1, 2] false 70 71 72 9 73 = .ok (.created 71 9, st2) ∧
      st2.pv.blobs = stW.pv.blobs ++
        [(71, ⟨0, some (commit_metadata ([1, 2].filterMap (headOf stW)) 70), none⟩),
         (72, ⟨0, some (branch_metadata 9 71 73), none⟩)] ∧
      (stW.pv.present 71 = false →
        st2.pv.decode 71 = some (commit_metadata ([1, 2].filterMap (headOf stW)) 70)) ∧
      (∀ h, h ∈ (commit_metadata ([1, 2].filterMap (headOf stW)) 70).parents ↔
        ∃ b ∈ [1, 2], headOf stW b = some h) ∧
      st2.head 9 = some 72 ∧
      (∀ b ∈ [1, 2], st2.head b = stW.head b)) ∧
    consolidate stW [1, 1] false 70 71 72 9 73 = .ok (.noop, stW) := by
  constructor
  · exact consolidate_correct.1 stW [1, 2] [1, 2] 70 71 72 9 73 rfl (by decide)
      (by decide) ⟨1, by decide, by decide⟩ rfl
  · exact consolidate_correct.2 stW [1, 1] 1 70 71 72 9 73 rfl (by decide)

/-- A present commit blob (`40`) built by `commit_metadata` whose single
content blob (`41`) is present. -/
def pvC4 : PileView :=
  ⟨[(40, ⟨0, some (commit_metadata [7] 41), none⟩), (41, ⟨0, none, none⟩)]⟩

/-- C4: every commit blob the program creates goes through the
spec-modelled `commit_metadata` (consolidate's merge commit included, see
branch.rs:1321) and carries exactly one content handle; consequently a
commit whose single content blob is present passes `verify_chain`'s
content check, and on a healthy pile (spec §3: every reachable commit
present, decodable, with its content blob present) `verify_chain` reports
no error. -/
theorem commit_one_content_verify_ok :
    (∀ (parents : List Nat) (contentH : Nat),
        (commit_metadata parents contentH).contents = [contentH]) ∧
    (∀ (pv : PileView) (h : Nat) (parents : List Nat) (contentH : Nat),
        pv.decode h = some (commit_metadata parents contentH) →
        pv.present contentH = true → okAt pv h = true) ∧
    (∀ (pv : PileView) (start : Nat),
        (∀ x, ReachVC pv start x → okAt pv x = true) →
        ∃ n, verify_chain pv start = some (n, none)) := by
  refine ⟨fun _ _ => rfl, ?_, ?_⟩
  · intro pv h parents contentH hdec hpres
    unfold okAt
    rw [hdec]
    simp [commit_metadata, hpres]
  · intro pv start hall
    obtain ⟨r, hres, hcase⟩ := verify_chain_spec pv start
    rcases hcase with ⟨n, rfl, _, _⟩ | ⟨k, e, rfl, hspec, hreach, _⟩
    · exact ⟨n, hres⟩
    · exact (okAt_not_err (hall e.handle hreach) hspec).elim

/-- Witness for C4: the content check passes on a concrete
`commit_metadata` commit, and `verify_chain` succeeds on the intact chain. -/
theorem commit_one_content_verify_ok_witness :
    okAt pvC4 40 = true ∧ ∃ n, verify_chain pvIntact 1 = some (n, none) := by
  refine ⟨commit_one_content_verify_ok.2.1 pvC4 40 [7] 41 (by rfl) (by rfl), ?_⟩
  exact commit_one_content_verify_ok.2.2 pvIntact 1
    (fun x hx => by rcases pvIntact_reach x hx with rfl | rfl <;> rfl)

/-! ## Diagnose and the recoverable-head search (cli/pile.rs:352-537) -/

/-- The per-branch diagnose report for a branch with a branch-store entry. -/
structure BranchReport where
  metaPresent : Bool
  metaDecodeErr : Bool
  headVal : Option Nat
  headPresent : Bool
  proposal : Option (Nat × Nat × Nat × Nat)
  chain : Option (Nat × Option ChainErr)
deriving DecidableEq, Repr

/-- The candidate scan (pile.rs:431-477): every decodable blob declaring
membership in the branch whose recorded head blob is present, listed as
`(record timestamp, metadata handle, head)` in file order.  Branch
memberships whose value does not decode as an id simply do not match, and
the head attribute is last-match-wins (the loop overwrites). -/
def candidateScan (pv : PileView) (bid : Nat) : List (Nat × Nat × Nat) :=
  pv.blobs.filterMap (fun e =>
    match e.2.decoded with
    | none => none
    | some ts =>
      if bid ∈ ts.branchRefs then
        match ts.heads.getLast? with
        | some hh => if pv.present hh then some (e.2.ts, e.1, hh) else none
        | none => none
      else none)

/-- The descending-timestamp comparison of pile.rs:479. -/
def tsGE (a b : Nat × Nat × Nat) : Prop := b.1 ≤ a.1

instance : DecidableRel tsGE := fun a b => Nat.decLe b.1 a.1

instance : IsTotal (Nat × Nat × Nat) tsGE :=
  ⟨fun a b => by unfold tsGE; exact le_total b.1 a.1⟩

instance : IsTrans (Nat × Nat × Nat) tsGE :=
  ⟨fun _ _ _ hab hbc => by unfold tsGE at *; omega⟩

/-- `candidates.sort_by(|a, b| b.0.cmp(&a.0))` (pile.rs:479): a stable
sort, newest record timestamp first (Rust's `sort_by` is stable, and so is
insertion sort, so the results agree). -/
def rankCandidates (cs : List (Nat × Nat × Nat)) : List (Nat × Nat × Nat) :=
  cs.insertionSort tsGE

/-- The first ranked candidate whose full chain verifies (pile.rs:481-495),
as `(head, timestamp, metadata handle, chain length)`. -/
def firstVerifying (pv : PileView) : List (Nat × Nat × Nat) → Option (Nat × Nat × Nat × Nat)
  | [] => none
  | (ts0, mh, hh) :: rest =>
    match verify_chain pv hh with
    | some (depth, none) => some (hh, ts0, mh, depth)
    | _ => firstVerifying pv rest

/-- The recoverable-head search (pile.rs:430-495). -/
def recoverableSearch (pv : PileView) (bid : Nat) : Option (Nat × Nat × Nat × Nat) :=
  firstVerifying pv (rankCandidates (candidateScan pv bid))

/-- One branch's diagnose pass for a branch whose branch-store value is
`mh` (pile.rs:364-534).  The head attribute extraction is
last-match-wins (pile.rs:377-382); the search runs only when the recorded
head is missing and fail-fast is off (pile.rs:430); the chain is verified
from the recorded head, or from the proposed head when the recorded one
is missing (pile.rs:498-507).  Fail-fast early aborts change only which
output is reported, not whether anything is written. -/
def diagnoseBranch (pv : PileView) (bid mh : Nat) (failFast : Bool) : BranchReport :=
  let metaPresent := pv.present mh
  let decoded := if metaPresent then pv.decode mh else none
  let headVal := decoded.bind (fun ts => ts.heads.getLast?)
  let headPresent := match headVal with
    | some h => pv.present h
    | none => false
  let proposal :=
    if headPresent = false ∧ failFast = false then recoverableSearch pv bid else none
  let chain := (headVal.or (proposal.map (·.1))).bind (fun h => verify_chain pv h)
  { metaPresent := metaPresent
    metaDecodeErr := metaPresent && (pv.decode mh).isNone
    headVal := headVal
    headPresent := headPresent
    proposal := proposal
    chain := chain }

/-- Diagnose is read-only: the repository state passes through unchanged
(the Diagnose arm contains no `update` call). -/
def diagnoseBranchSt (st : RepoState) (bid mh : Nat) (failFast : Bool) :
    BranchReport × RepoState :=
  (diagnoseBranch st.pv bid mh failFast, st)

/-- A pile for branch id `9`: its live metadata (`50`) records head `60`,
which is present and decodable but whose content blob `70` is missing
(chain broken); an older metadata blob (`51`) records head `61` whose
chain is intact. -/
def pvBroken : PileView :=
  ⟨[(50, ⟨1, some ⟨[], [], [9], [60], []⟩, none⟩),
    (60, ⟨2, some ⟨[], [70], [], [], []⟩, none⟩),
    (51, ⟨5, some ⟨[], [], [9], [61], []⟩, none⟩),
    (61, ⟨6, some ⟨[], [71], [], [], []⟩, none⟩),
    (71, ⟨7, none, none⟩)]⟩

/-- Counterexample to C3 as stated: branch `9`'s recorded head `60` is
present but fails verification (content blob missing), a verifying
recovery candidate exists, yet the recoverable-head search does not run —
no proposal is reported.  The search is gated on the head blob being
missing, not on verification failure. -/
theorem diagnose_trigger_counterexample :
    (diagnoseBranch pvBroken 9 50 false).headPresent = true ∧
    (diagnoseBranch pvBroken 9 50 false).chain =
      some (0, some (.contentMissing 60)) ∧
    recoverableSearch pvBroken 9 = some (61, 5, 51, 1) ∧
    (diagnoseBranch pvBroken 9 50 false).proposal = none := by
  exact ⟨rfl, rfl, rfl, rfl⟩

theorem firstVerifying_split (pv : PileView) :
    ∀ (l : List (Nat × Nat × Nat)) (hh ts0 mh2 depth : Nat),
      firstVerifying pv l = some (hh, ts0, mh2, depth) →
      ∃ l1 l2, l = l1 ++ (ts0, mh2, hh) :: l2 ∧
        (∀ c ∈ l1, ∀ d e, verify_chain pv c.2.2 = some (d, e) → e ≠ none) ∧
        verify_chain pv hh = some (depth, none) := by
  intro l
  induction l with
  | nil => intro hh ts0 mh2 depth h; simp [firstVerifying] at h
  | cons c rest ih =>
    intro hh ts0 mh2 depth h
    obtain ⟨cts, cmh, chh⟩ := c
    rw [firstVerifying] at h
    cases hv : verify_chain pv chh with
    | none =>
      rw [hv] at h
      obtain ⟨l1, l2, hsplit, hfail, hok⟩ := ih hh ts0 mh2 depth h
      refine ⟨(cts, cmh, chh) :: l1, l2, by rw [hsplit]; rfl, ?_, hok⟩
      intro x hx d e hve
      rcases List.mem_cons.mp hx with rfl | hx2
      · simp only [] at hve
        rw [hv] at hve
        exact absurd hve (by simp)
      · exact hfail x hx2 d e hve
    | some r =>
      obtain ⟨d0, err⟩ := r
      cases err with
      | none =>
        rw [hv] at h
        simp only [Option.some.injEq] at h
        obtain ⟨h1, h2, h3, h4⟩ : chh = hh ∧ cts = ts0 ∧ cmh = mh2 ∧ d0 = depth := by
          have e1 := congrArg Prod.fst h
          have e2 := congrArg (fun p => p.2.1) h
          have e3 := congrArg (fun p => p.2.2.1) h
          have e4 := congrArg (fun p => p.2.2.2) h
          exact ⟨e1, e2, e3, e4⟩
        subst h1
        subst h2
        subst h3
        subst h4
        exact ⟨[], rest, rfl, by intro x hx; simp at hx, hv⟩
      | some e0 =>
        rw [hv] at h
        obtain ⟨l1, l2, hsplit, hfail, hok⟩ := ih hh ts0 mh2 depth h
        refine ⟨(cts, cmh, chh) :: l1, l2, by rw [hsplit]; rfl, ?_, hok⟩
        intro x hx d e hve
        rcases List.mem_cons.mp hx with rfl | hx2
        · simp only [] at hve
          rw [hv] at hve
          have : e = some e0 := congrArg (fun p => p.2) (Option.some.inj hve.symm)
          rw [this]
          simp
        · exact hfail x hx2 d e hve

/-- C3 (amended): during diagnose, the recoverable-head search runs
exactly when the branch's recorded head is missing (no head in the
metadata, or the head blob absent) and fail-fast is off; the search
considers exactly the decodable metadata blobs declaring membership in
the branch whose recorded head blob is present, ranks them by blob record
timestamp newest first, and proposes the first candidate whose full chain
verifies (all strictly newer candidates fail verification); the proposal
is only reported, never applied to the branch store. -/
theorem diagnose_recoverable :
    (∀ (pv : PileView) (bid mh : Nat) (ff : Bool),
      (diagnoseBranch pv bid mh ff).proposal =
        (if (diagnoseBranch pv bid mh ff).headPresent = false ∧ ff = false
         then recoverableSearch pv bid else none)) ∧
    (∀ (pv : PileView) (bid hh ts0 mh2 depth : Nat),
      recoverableSearch pv bid = some (hh, ts0, mh2, depth) →
        (ts0, mh2, hh) ∈ candidateScan pv bid ∧
        verify_chain pv hh = some (depth, none) ∧
        (∀ c ∈ candidateScan pv bid, ts0 < c.1 →
          ∀ d e, verify_chain pv c.2.2 = some (d, e) → e ≠ none)) ∧
    (∀ (pv : PileView) (bid : Nat) (c : Nat × Nat × Nat), c ∈ candidateScan pv bid →
      ∃ b, (c.2.1, b) ∈ pv.blobs ∧ b.ts = c.1 ∧
        ∃ ts2, b.decoded = some ts2 ∧ bid ∈ ts2.branchRefs ∧
          ts2.heads.getLast? = some c.2.2 ∧ pv.present c.2.2 = true) ∧
    (∀ (st : RepoState) (bid mh : Nat) (ff : Bool),
      (diagnoseBranchSt st bid mh ff).2 = st) := by
  refine ⟨?_, ?_, ?_, ?_⟩
  · intro pv bid mh ff
    rfl
  · intro pv bid hh ts0 mh2 depth h
    unfold recoverableSearch at h
    obtain ⟨l1, l2, hsplit, hfail, hok⟩ := firstVerifying_split pv _ hh ts0 mh2 depth h
    have hperm : (rankCandidates (candidateScan pv bid)).Perm (candidateScan pv bid) :=
      List.perm_insertionSort _ _
    have hmem : (ts0, mh2, hh) ∈ candidateScan pv bid := by
      apply hperm.mem_iff.mp
      rw [hsplit]
      exact List.mem_append_right _ (List.mem_cons_self _ _)
    refine ⟨hmem, hok, ?_⟩
    intro c hc hts d e hve
    have hcr : c ∈ rankCandidates (candidateScan pv bid) := hperm.mem_iff.mpr hc
    rw [hsplit] at hcr
    have hpw : (rankCandidates (candidateScan pv bid)).Pairwise tsGE :=
      List.sorted_insertionSort tsGE (candidateScan pv bid)
    rw [hsplit] at hpw
    rcases List.mem_append.mp hcr with hc1 | hc2
    · exact hfail c hc1 d e hve
    · rcases List.mem_cons.mp hc2 with rfl | hc3
      · simp at hts
      · exfalso
        have hx := ((List.pairwise_append.mp hpw).2.1)
        rw [List.pairwise_cons] at hx
        have hrel := hx.1 c hc3
        unfold tsGE at hrel
        simp at hrel
        omega
  · intro pv bid c hc
    unfold candidateScan at hc
    obtain ⟨e, he, hf⟩ := List.mem_filterMap.mp hc
    cases hdec : e.2.decoded with
    | none => rw [hdec] at hf; simp at hf
    | some ts2 =>
      rw [hdec] at hf
      have hf : (if bid ∈ ts2.branchRefs then
          (match ts2.heads.getLast? with
            | some hh => if pv.present hh then some (e.2.ts, e.1, hh) else none
            | none => none)
          else none) = some c := hf
      by_cases hb : bid ∈ ts2.branchRefs
      · rw [if_pos hb] at hf
        cases hgl : ts2.heads.getLast? with
        | none => rw [hgl] at hf; simp at hf
        | some hh2 =>
          rw [hgl] at hf
          have hf : (if pv.present hh2 then some (e.2.ts, e.1, hh2) else none) =
              some c := hf
          by_cases hp : pv.present hh2 = true
          · rw [if_pos hp] at hf
            simp only [Option.some.injEq] at hf
            have e1 : e.2.ts = c.1 := congrArg Prod.fst hf
            have e2 : e.1 = c.2.1 := congrArg (fun p => p.2.1) hf
            have e3 : hh2 = c.2.2 := congrArg (fun p => p.2.2) hf
            refine ⟨e.2, by rw [← e2]; exact he, e1, ts2, hdec, hb, ?_, ?_⟩
            · rw [← e3]; exact hgl
            · rw [← e3]; exact hp
          · rw [if_neg hp] at hf
            simp at hf
      · rw [if_neg hb] at hf
        simp at hf
  · intro st bid mh ff
    rfl

/-- Witness for C3's amended theorem: on `pvBroken` the search returns the
newest verifying candidate with all the claimed properties, and with
fail-fast on, no proposal is made. -/
theorem diagnose_recoverable_witness :
    ((5, 51, 61) ∈ candidateScan pvBroken 9 ∧
      verify_chain pvBroken 61 = some (1, none) ∧
      (∀ c ∈ candidateScan pvBroken 9, 5 < c.1 →
        ∀ d e, verify_chain pvBroken c.2.2 = some (d, e) → e ≠ none)) ∧
    (diagnoseBranch pvBroken 9 51 true).proposal = none := by
  refine ⟨diagnose_recoverable.2.1 pvBroken 9 61 5 51 1 (by rfl), ?_⟩
  rw [diagnose_recoverable.1 pvBroken 9 51 true]
  simp

end Trible
